import Mathlib

/-!
Verification of the bidirectional-BFS Rubik's-style solver (src/main.cpp).

States are fixed-length symbol sequences (`List Char` mirroring `std::string`),
moves are the `TEmptyMove` / `TSimpleCycleMove` / `TCompositeMove` hierarchy,
and the search engine `DoSolve` / `Solve` is embedded with an explicit fuel
parameter for the outer `while` loop (`none` = fuel exhausted mid-loop).
-/

/-- Default character used to totalize out-of-range reads (`operator[]` on
`std::string` out of range is undefined behaviour in the source). -/
def defCh : Char := '?'

/-- The apostrophe character (ASCII 39) used by the move naming convention. -/
def apos : Char := Char.ofNat 39

/-- States: one cube configuration, `std::string` in the source. -/
abbrev St := List Char

/-- Move labels, e.g. `U`, `U2`: `std::string` keys of the move catalog. -/
abbrev Label := List Char

/-- A sequence of move labels (`std::vector<std::string>` in the source). -/
abbrev MPath := List Label

/-- The loop `for (size_t i = n - 1; i > 0; --i) cube[Cycle[(i+1)%n]] = cube[Cycle[i]];`
of `TSimpleCycleMove::Apply`: the first argument of the match is the loop
counter `i`, counting down to `0` (the iteration for counter value `i ≥ 1`
writes the symbol at `cycle[i]` to `cycle[(i+1) % n]`). -/
def cycleLoop (cycle : List Nat) (n : Nat) : Nat → List Char → List Char
  | 0, cube => cube
  | i + 1, cube =>
      cycleLoop cycle n i
        (cube.set (cycle.getD ((i + 2) % n) 0) (cube.getD (cycle.getD (i + 1) 0) defCh))

/-- Embedding of `TSimpleCycleMove::Apply`: save `cube[Cycle[0]]`, run the rotation loop,
then write the saved symbol to `cube[Cycle[1]]`. -/
def applyCycle (cycle : List Nat) (cube : List Char) : List Char :=
  let t := cube.getD (cycle.getD 0 0) defCh
  let n := cycle.length
  (cycleLoop cycle n (n - 1) cube).set (cycle.getD 1 0) t

/-- The move representation: `TEmptyMove`, `TSimpleCycleMove` (a list of
position indices forming one cycle) and `TCompositeMove` (left then right). -/
inductive TMove where
  | empty : TMove
  | cycle : List Nat → TMove
  | comp : TMove → TMove → TMove
deriving DecidableEq

/-- The `Apply` of the move hierarchy: identity, one cycle rotation, or
left-then-right composition. -/
def TMove.apply : TMove → List Char → List Char
  | .empty, cube => cube
  | .cycle c, cube => applyCycle c cube
  | .comp l r, cube => r.apply (l.apply cube)

/-- The variadic `CreateComposite(first, args...)`: a single operand is the
move itself, several operands fold from the right via `operator+=`
(`comp m1 (comp m2 (... mk))`), applied in left-to-right order. -/
def CreateComposite : List TMove → TMove
  | [] => TMove.empty
  | [m] => m
  | m :: rest => TMove.comp m (CreateComposite rest)

/-- The `U` move of `GenerateAllMoves` (five 4-cycles). -/
def mU : TMove :=
  CreateComposite [TMove.cycle [6, 8, 14, 12], TMove.cycle [7, 11, 13, 9],
    TMove.cycle [0, 30, 20, 36], TMove.cycle [1, 31, 19, 37], TMove.cycle [2, 32, 18, 38]]

/-- The `D` move of `GenerateAllMoves` (five 4-cycles). -/
def mD : TMove :=
  CreateComposite [TMove.cycle [21, 23, 29, 27], TMove.cycle [22, 26, 28, 24],
    TMove.cycle [3, 39, 17, 33], TMove.cycle [4, 40, 16, 34], TMove.cycle [5, 41, 15, 35]]

/-- The `L2` move of `GenerateAllMoves` (eight transpositions). -/
def mL2 : TMove :=
  CreateComposite [TMove.cycle [30, 35], TMove.cycle [31, 34], TMove.cycle [32, 33],
    TMove.cycle [3, 18], TMove.cycle [0, 15], TMove.cycle [6, 21], TMove.cycle [9, 24],
    TMove.cycle [12, 27]]

/-- The `R2` move of `GenerateAllMoves`. -/
def mR2 : TMove :=
  CreateComposite [TMove.cycle [36, 41], TMove.cycle [37, 40], TMove.cycle [38, 39],
    TMove.cycle [5, 20], TMove.cycle [2, 17], TMove.cycle [14, 29], TMove.cycle [11, 26],
    TMove.cycle [8, 23]]

/-- The `F2` move of `GenerateAllMoves`. -/
def mF2 : TMove :=
  CreateComposite [TMove.cycle [0, 5], TMove.cycle [1, 4], TMove.cycle [2, 3],
    TMove.cycle [12, 23], TMove.cycle [13, 22], TMove.cycle [14, 21], TMove.cycle [32, 39],
    TMove.cycle [35, 36]]

/-- The `B2` move of `GenerateAllMoves`. -/
def mB2 : TMove :=
  CreateComposite [TMove.cycle [15, 20], TMove.cycle [16, 19], TMove.cycle [17, 18],
    TMove.cycle [6, 29], TMove.cycle [7, 28], TMove.cycle [8, 27], TMove.cycle [30, 41],
    TMove.cycle [33, 38]]

/-- Label `"L2"`. -/
def lblL2 : Label := ['L', '2']
/-- Label `"R2"`. -/
def lblR2 : Label := ['R', '2']
/-- Label `"F2"`. -/
def lblF2 : Label := ['F', '2']
/-- Label `"B2"`. -/
def lblB2 : Label := ['B', '2']
/-- Label `"U"`. -/
def lblU : Label := ['U']
/-- Label `"U2"`. -/
def lblU2 : Label := ['U', '2']
/-- Label `"U'"`. -/
def lblUp : Label := ['U', apos]
/-- Label `"D"`. -/
def lblD : Label := ['D']
/-- Label `"D2"`. -/
def lblD2 : Label := ['D', '2']
/-- Label `"D'"`. -/
def lblDp : Label := ['D', apos]

/-- A move catalog: labelled moves (`std::unordered_map<std::string, TMove>`),
as an association list in insertion order. -/
abbrev Catalog := List (Label × TMove)

/-- Embedding of `GenerateAllMoves()`: the full catalog, in the source's assignment order;
`U2 = CreateComposite(u, u)` and `U' = CreateComposite(u, u, u)`, likewise `D`. -/
def GenerateAllMoves : Catalog :=
  [(lblL2, mL2), (lblR2, mR2), (lblF2, mF2), (lblB2, mB2),
   (lblU, mU), (lblU2, TMove.comp mU mU), (lblUp, TMove.comp mU (TMove.comp mU mU)),
   (lblD, mD), (lblD2, TMove.comp mD mD), (lblDp, TMove.comp mD (TMove.comp mD mD))]

/-- Embedding of `GenerateAll2Moves()`: keep only entries whose label has size 2 and whose
second character is `'2'`. -/
def GenerateAll2Moves : Catalog :=
  GenerateAllMoves.filter fun p => p.1.length = 2 && p.1.getD 1 defCh = '2'

/-- Per-label inversion in `ReverseMoves`: size > 1 with second char `'2'` is
unchanged, any other size > 1 label becomes `substr(0, 1)`, otherwise append
the apostrophe. -/
def invertMove (m : Label) : Label :=
  if 1 < m.length ∧ m.getD 1 defCh = '2' then m
  else if 1 < m.length then m.take 1
  else m ++ [apos]

/-- Embedding of `ReverseMoves`: invert each label in order, then reverse the vector. -/
def ReverseMoves (moves : MPath) : MPath :=
  (moves.map invertMove).reverse

/-- Embedding of `Project`: collapse `'o'` to `'r'` and `'g'` to `'b'`, other symbols kept. -/
def Project (cube : St) : St :=
  cube.map fun ch => if ch = 'o' then 'r' else if ch = 'g' then 'b' else ch

/-- First-match association-list lookup (`find` on the map). -/
def lookupA {α : Type} : List (Label × α) → Label → Option α
  | [], _ => none
  | (k, v) :: rest, key => if k = key then some v else lookupA rest key

/-- The keys of an association list. -/
def keys {α : Type} (d : List (Label × α)) : List Label :=
  d.map Prod.fst

/-- The map access `allMoves[label]` as used when replaying a label sequence: a missing key
default-constructs `TMove()`, i.e. the empty move. -/
def lookupMove (cat : Catalog) (l : Label) : TMove :=
  (lookupA cat l).getD TMove.empty

/-- Replaying a label sequence on a cube, as the caller of `Solve` does:
`for (const auto &move : result) allMoves[move](cube);`. -/
def applyLabels (cat : Catalog) (labels : MPath) (cube : St) : St :=
  labels.foldl (fun c l => (lookupMove cat l).apply c) cube

/-- Dictionary from reached state to the label sequence reaching it
(`TDict = std::unordered_map<std::string, TMoveCodes>`). -/
abbrev Dict := List (St × MPath)

/-- The search state of `DoSolve`: the two visited dictionaries and the two
FIFO frontier queues. -/
structure BfsState where
  fwdR : Dict
  bwdR : Dict
  fwdQ : List St
  bwdQ : List St
deriving DecidableEq

/-- The inner `for (const auto &move : allMoves)` of one expansion step of one
side of `DoSolve`.  `current` is the dequeued state, `curPath` its recorded
label sequence, `myR`/`myQ` the expanding side's dictionary and queue,
`otherR` the opposite dictionary.  A state not yet in `myR` is recorded with
`curPath ++ [label]` and enqueued; then the opposite dictionary is consulted
(whether or not the state was new) and, on a hit, the two recorded label
sequences are returned (`Sum.inr`, this side's first: `return true`). -/
def expandLoop (current : St) (curPath : MPath) :
    List (Label × TMove) → Dict → Dict → List St → (Dict × List St) ⊕ (MPath × MPath)
  | [], myR, _, myQ => Sum.inl (myR, myQ)
  | lm :: rest, myR, otherR, myQ =>
    match lookupA myR (TMove.apply lm.2 current) with
    | none =>
      match lookupA otherR (TMove.apply lm.2 current) with
      | some otherP => Sum.inr (curPath ++ [lm.1], otherP)
      | none =>
          expandLoop current curPath rest
            ((TMove.apply lm.2 current, curPath ++ [lm.1]) :: myR) otherR
            (myQ ++ [TMove.apply lm.2 current])
    | some myP =>
      match lookupA otherR (TMove.apply lm.2 current) with
      | some otherP => Sum.inr (myP, otherP)
      | none => expandLoop current curPath rest myR otherR myQ

/-- One side's block of the `while` loop body: if this side's queue is
non-empty, dequeue the oldest state and expand it with every catalog move. -/
def sideStep (cat : Catalog) (myR otherR : Dict) (myQ : List St) :
    (Dict × List St) ⊕ (MPath × MPath) :=
  match myQ with
  | [] => Sum.inl (myR, myQ)
  | current :: rest => expandLoop current ((lookupA myR current).getD []) cat myR otherR rest

/-- One iteration of the `while` loop of `DoSolve`: the forward block, then
(if it did not return) the backward block, which consults the forward
dictionary as updated by the forward block.  `Sum.inr (fwd, bwd)` is the
early `return true` with its two label sequences. -/
def bfsStep (cat : Catalog) (s : BfsState) : BfsState ⊕ (MPath × MPath) :=
  match sideStep cat s.fwdR s.bwdR s.fwdQ with
  | Sum.inr r => Sum.inr r
  | Sum.inl (fR, fQ) =>
    match sideStep cat s.bwdR fR s.bwdQ with
    | Sum.inr (myP, otherP) => Sum.inr (otherP, myP)
    | Sum.inl (bR, bQ) => Sum.inl ⟨fR, bR, fQ, bQ⟩

/-- The `while (!fwdQueue.empty() || !bwdQueue.empty())` loop, with fuel for
the number of iterations: `none` means the fuel ran out with the loop still
running, `some none` is `return false`, `some (some (fwd, bwd))` the success
return with the two recorded label sequences. -/
def bfsLoop (cat : Catalog) : Nat → BfsState → Option (Option (MPath × MPath))
  | 0, s =>
      if s.fwdQ = [] ∧ s.bwdQ = [] then some none else none
  | fuel + 1, s =>
      if s.fwdQ = [] ∧ s.bwdQ = [] then some none
      else
        match bfsStep cat s with
        | Sum.inr r => some (some r)
        | Sum.inl s2 => bfsLoop cat fuel s2

/-- The initial search state: each root recorded with the empty label
sequence and enqueued. -/
def initState (a b : St) : BfsState :=
  ⟨[(a, [])], [(b, [])], [a], [b]⟩

/-- Embedding of `DoSolve(startCube, endCube, allMoves, fwd, bwd)`: equal start and goal
return `true` immediately (before the loop) with the output sequences left
empty; otherwise the bidirectional search runs. -/
def DoSolveFuel (fuel : Nat) (a b : St) (cat : Catalog) : Option (Option (MPath × MPath)) :=
  if a = b then some (some ([], [])) else bfsLoop cat fuel (initState a b)

/-- Embedding of `Solve(startCube, endCube, allMoves, result)`: on success of `DoSolve`,
push the forward labels and then the reversed backward labels onto the
caller's `result` vector `res0` (which is never cleared). -/
def SolveFuel (fuel : Nat) (a b : St) (cat : Catalog) (res0 : MPath) : Option (Option MPath) :=
  match DoSolveFuel fuel a b cat with
  | none => none
  | some none => some none
  | some (some (f, bw)) => some (some (res0 ++ (f ++ ReverseMoves bw)))

/-- Embedding of `Solve2Stages`: solve the projected instance with the full catalog, replay
the found labels on the real start state, then solve from there to the goal
with the half-turn catalog, appending onto the same `result` vector. -/
def Solve2StagesFuel (fuel : Nat) (start goal : St) : Option (Option MPath) :=
  match SolveFuel fuel (Project start) (Project goal) GenerateAllMoves [] with
  | none => none
  | some none => some none
  | some (some result1) =>
      SolveFuel fuel (applyLabels GenerateAllMoves result1 start) goal GenerateAll2Moves
        result1

/-- One catalog move edge of the implicit state graph. -/
def StepR (cat : Catalog) (x y : St) : Prop :=
  ∃ lm ∈ cat, TMove.apply lm.2 x = y

/-- Reachability by a sequence of catalog moves. -/
def Reach (cat : Catalog) : St → St → Prop :=
  Relation.ReflTransGen (StepR cat)

/-- Per-label inversion exactly as the claim words it, testing the LAST
character of the label: a label ending in `2` is unchanged, a label of
length > 1 otherwise ending in the apostrophe becomes its one-character
prefix, a single-character label gets the apostrophe appended (labels
matching none of these cases are left unchanged). -/
def invertLabelClaim (m : Label) : Label :=
  if m.getLastD defCh = '2' then m
  else if 1 < m.length ∧ m.getLastD defCh = apos then m.take 1
  else if m.length = 1 then m ++ [apos]
  else m

/-- Sequence inversion as the claim words it: reverse, inverting each label
by `invertLabelClaim`. -/
def ReverseMovesClaim (moves : MPath) : MPath :=
  (moves.map invertLabelClaim).reverse

/-- Per-label inversion as amended, testing the SECOND character: a label of
length > 1 whose second character is `2` is unchanged, any other label of
length > 1 becomes its one-character prefix, and a single-character label
gets the apostrophe appended. -/
def invertLabelSpec (m : Label) : Label :=
  if 1 < m.length then (if m.getD 1 defCh = '2' then m else m.take 1)
  else m ++ [apos]

/-- Well-formed moves with respect to state length `L`: every primitive
cycle has at least two positions (the code reads `Cycle[1]`), all distinct
and in range.  Out-of-range or duplicate indices are undefined behaviour /
catalog-construction bugs per the specification. -/
def ValidMove (L : Nat) : TMove → Prop
  | .empty => True
  | .cycle c => c.Nodup ∧ 2 ≤ c.length ∧ ∀ i ∈ c, i < L
  | .comp l r => ValidMove L l ∧ ValidMove L r

/-- A catalog whose moves are all well-formed for state length `L`. -/
def ValidCat (cat : Catalog) (L : Nat) : Prop :=
  ∀ lm ∈ cat, ValidMove L lm.2

/-- A catalog closed under label inversion on states of length `L`: for each
entry, the inverted label is present and its move undoes the entry's move. -/
def InvClosed (cat : Catalog) (L : Nat) : Prop :=
  ∀ lm ∈ cat, ∃ mv2, lookupA cat (invertMove lm.1) = some mv2 ∧
    ∀ cube : St, cube.length = L → TMove.apply mv2 (TMove.apply lm.2 cube) = cube

/-- All lists of a given length over a given alphabet list. -/
def allLists (A : List Char) : Nat → List (List Char)
  | 0 => [[]]
  | n + 1 => A.flatMap fun c => (allLists A n).map (c :: ·)

/-- Upper bound on the number of states one frontier can ever record:
states reachable from `x` keep length `x.length` and use only symbols of
`x` (plus the totalization default). -/
def bndOf (x : St) : Nat :=
  (allLists (defCh :: x) x.length).length

/-- Termination measure for the `DoSolve` loop: each iteration with a
non-empty queue strictly decreases it. -/
def measPhi (a b : St) (s : BfsState) : Nat :=
  (2 * bndOf a - 2 * s.fwdR.length) + s.fwdQ.length +
    ((2 * bndOf b - 2 * s.bwdR.length) + s.bwdQ.length)

/-- The one-sided loop invariant of `DoSolve` for a dictionary/queue pair
rooted at `root`. -/
structure SideInv (cat : Catalog) (root : St) (myR : Dict) (myQ : List St) : Prop where
  rootMem : root ∈ keys myR
  nd : (keys myR).Nodup
  qnd : myQ.Nodup
  qsub : ∀ x ∈ myQ, x ∈ keys myR
  reach : ∀ x ∈ keys myR, Reach cat root x
  closed : ∀ x ∈ keys myR, x ∉ myQ → ∀ lm ∈ cat, TMove.apply lm.2 x ∈ keys myR

/-- The loop invariant of `DoSolve`: both sides plus disjointness of the two
visited sets (a met state returns before the iteration ends). -/
structure BInv (cat : Catalog) (a b : St) (s : BfsState) : Prop where
  fwd : SideInv cat a s.fwdR s.fwdQ
  bwd : SideInv cat b s.bwdR s.bwdQ
  disj : ∀ x ∈ keys s.fwdR, x ∉ keys s.bwdR

/-- The one-sided path invariant: recorded label sequences replay from the
root to their key and use only catalog labels. -/
structure SidePInv (cat : Catalog) (root : St) (myR : Dict) : Prop where
  pcorrect : ∀ kv ∈ myR, applyLabels cat kv.2 root = kv.1
  plabels : ∀ kv ∈ myR, ∀ l ∈ kv.2, l ∈ keys cat

/-- The path invariant of `DoSolve` for both sides. -/
structure BPInv (cat : Catalog) (a b : St) (s : BfsState) : Prop where
  fwd : SidePInv cat a s.fwdR
  bwd : SidePInv cat b s.bwdR

/-- Success of `Solve` for some amount of fuel. -/
def SolveSucceeds (a b : St) (cat : Catalog) : Prop :=
  ∃ fuel r, SolveFuel fuel a b cat [] = some (some r)

/-- A one-move catalog whose single move is a 4-cycle: its label inverse
`Z'` names no catalog move (counterexample catalog for claim C1). -/
def catZ4 : Catalog :=
  [(['Z'], TMove.cycle [0, 1, 2, 3])]

/-- A catalog containing a quarter turn and its inverse over a 4-cycle
(counterexample catalog for claim C8). -/
def catU4 : Catalog :=
  [(['U'], TMove.cycle [0, 1, 2, 3]),
   (['U', apos], TMove.comp (TMove.cycle [0, 1, 2, 3])
      (TMove.comp (TMove.cycle [0, 1, 2, 3]) (TMove.cycle [0, 1, 2, 3])))]

/-- A self-inverse one-move catalog (witness catalog for claim C1's amended
round-trip statement). -/
def catX2 : Catalog :=
  [(['X', '2'], TMove.cycle [0, 1])]

/-- The goal state of `main`, used as a concrete 42-symbol witness state. -/
def cube42 : St :=
  "rrrrrrbbbbbbbbboooooogggggggggwwwwwwyyyyyy".toList

/-- Index-level semantics of one cycle: the position whose OLD symbol ends up
at position `p` after the rotation (`p` itself when `p` is not on the cycle). -/
def cycIdx (c : List Nat) (p : Nat) : Nat :=
  if p ∈ c then c.getD ((List.indexOf p c + c.length - 1) % c.length) 0 else p

/-- Index-level semantics of a move: position `p` of the result holds the
input's symbol at position `moveIdx m p` (for well-formed moves). -/
def moveIdx : TMove → Nat → Nat
  | .empty, p => p
  | .cycle c, p => cycIdx c p
  | .comp l r, p => moveIdx l (moveIdx r p)

/-- Well-formedness of a move is decidable. -/
instance instDecidableValidMove (L : Nat) : (m : TMove) → Decidable (ValidMove L m)
  | .empty => by unfold ValidMove; exact inferInstance
  | .cycle c => by unfold ValidMove; exact inferInstance
  | .comp l r => by
      unfold ValidMove
      have := instDecidableValidMove L l
      have := instDecidableValidMove L r
      exact inferInstance

/-! ## Easy consequences of the definitions -/

/-- Helper: `Solve` only ever appends, so a successful result extends the
caller's vector. -/
theorem solveFuel_extends (fuel : Nat) (a g : St) (cat : Catalog) (res0 out : MPath)
    (h : SolveFuel fuel a g cat res0 = some (some out)) :
    ∃ tail, out = res0 ++ tail ∧ SolveFuel fuel a g cat [] = some (some tail) := by
  unfold SolveFuel at h ⊢
  cases hd : DoSolveFuel fuel a g cat with
  | none => rw [hd] at h; exact absurd h (by simp)
  | some o =>
    cases o with
    | none => rw [hd] at h; exact absurd h (by simp)
    | some p =>
      rw [hd] at h
      simp only [Option.some.injEq] at h
      exact ⟨p.1 ++ ReverseMoves p.2, h.symm, by simp⟩

/-- Claim C6: `Solve(x, x, cat)` succeeds with zero moves appended, and the
equal-start-goal case is decided before the search loop runs (zero fuel
suffices). -/
theorem solve_identity (x : St) (cat : Catalog) (fuel : Nat) (res0 : MPath) :
    DoSolveFuel 0 x x cat = some (some ([], [])) ∧
    SolveFuel fuel x x cat res0 = some (some res0) := by
  constructor
  · simp [DoSolveFuel]
  · simp [SolveFuel, DoSolveFuel, ReverseMoves]

/-- Claim C9: with mismatched-length start and goal the code does NOT reject
the input up front; the bidirectional search loop is entered (with zero loop
fuel the run is still unfinished) and failure is reported only by ordinary
frontier exhaustion. -/
theorem doSolve_no_length_check :
    DoSolveFuel 0 ['a'] ['b', 'c'] [] = none ∧
    DoSolveFuel 1 ['a'] ['b', 'c'] [] = some none := by
  decide

/-- Claim C3, counterexample: on the label `X2'` the code's second-character
test keeps the label unchanged, while the claim's rules (not ending in `2`,
length > 1, ending in the apostrophe) produce the bare prefix `X`. -/
theorem reverseMoves_claim_counterexample :
    ReverseMoves [['X', '2', apos]] ≠ ReverseMovesClaim [['X', '2', apos]] ∧
    ReverseMoves [['X', '2', apos]] = [['X', '2', apos]] ∧
    ReverseMovesClaim [['X', '2', apos]] = [['X']] := by
  refine ⟨by decide, by decide, by decide⟩

/-- Claim C3 as amended: `ReverseMoves` returns the reverse of the input with
each label inverted individually, where a label of length > 1 whose SECOND
character is `2` is unchanged, any other label of length > 1 becomes its
one-character prefix, and a single-character label gets the apostrophe
appended. -/
theorem reverseMoves_spec (moves : MPath) :
    ReverseMoves moves = moves.reverse.map invertLabelSpec := by
  have hf : invertMove = invertLabelSpec := by
    funext m
    unfold invertMove invertLabelSpec
    by_cases h1 : 1 < m.length
    · by_cases h2 : m.getD 1 defCh = '2'
      · simp [h1, h2]
      · simp [h1, h2]
    · simp [h1]
  unfold ReverseMoves
  rw [hf, List.map_reverse]

/-- Claim C1, counterexample: with a catalog holding a single 4-cycle `Z`
(no inverse entry), `Solve` succeeds via the backward frontier and returns
the label `Z'`, which names no catalog move, so replaying the returned
sequence leaves the start state unchanged instead of producing the goal. -/
theorem solve_roundtrip_counterexample :
    SolveFuel 1 ['a', 'b', 'c', 'd'] ['b', 'c', 'd', 'a'] catZ4 []
      = some (some [['Z', apos]]) ∧
    applyLabels catZ4 [['Z', apos]] ['a', 'b', 'c', 'd'] = ['a', 'b', 'c', 'd'] ∧
    ['a', 'b', 'c', 'd'] ≠ ['b', 'c', 'd', 'a'] := by
  refine ⟨by decide, by decide, by decide⟩

/-- Claim C8, counterexample: over the inversion-closed catalog `{U, U'}` of
a 4-cycle, solving `a → b` and `b → a` (with `b` two quarter-turns from `a`)
both return `[U', U']`; the inverse of the first result is `[U, U]`, which is
not a permutation of the second result, so the two returned sequences are not
inverses of each other even as label multisets. -/
theorem solve_symm_counterexample :
    SolveFuel 2 ['a', 'b', 'c', 'd'] ['c', 'd', 'a', 'b'] catU4 []
      = some (some [['U', apos], ['U', apos]]) ∧
    SolveFuel 2 ['c', 'd', 'a', 'b'] ['a', 'b', 'c', 'd'] catU4 []
      = some (some [['U', apos], ['U', apos]]) ∧
    ¬ List.Perm (ReverseMoves [['U', apos], ['U', apos]]) [['U', apos], ['U', apos]] := by
  refine ⟨by decide, by decide, by decide⟩

/-- Claim C10: `Solve` appends onto the caller's vector without clearing it
(prior contents kept as a prefix, then the forward labels, then the inverted
backward labels), leaves it unchanged on failure, and consequently
`Solve2Stages` returns the stage-1 sequence followed by the stage-2 sequence
in one vector. -/
theorem solve_appends_frame (fuel : Nat) (a g : St) (cat : Catalog) (res0 : MPath) :
    (∀ f bw, DoSolveFuel fuel a g cat = some (some (f, bw)) →
      SolveFuel fuel a g cat res0 = some (some (res0 ++ (f ++ ReverseMoves bw)))) ∧
    (DoSolveFuel fuel a g cat = some none → SolveFuel fuel a g cat res0 = some none) ∧
    (∀ out, Solve2StagesFuel fuel a g = some (some out) →
      ∃ s1 s2,
        SolveFuel fuel (Project a) (Project g) GenerateAllMoves [] = some (some s1) ∧
        SolveFuel fuel (applyLabels GenerateAllMoves s1 a) g GenerateAll2Moves s1
          = some (some (s1 ++ s2)) ∧
        out = s1 ++ s2) := by
  refine ⟨?_, ?_, ?_⟩
  · intro f bw h; simp [SolveFuel, h]
  · intro h; simp [SolveFuel, h]
  · intro out h
    unfold Solve2StagesFuel at h
    cases h1 : SolveFuel fuel (Project a) (Project g) GenerateAllMoves [] with
    | none => rw [h1] at h; exact absurd h (by simp)
    | some o1 =>
      cases o1 with
      | none => rw [h1] at h; exact absurd h (by simp)
      | some s1 =>
        rw [h1] at h
        obtain ⟨tail, hout, _⟩ := solveFuel_extends _ _ _ _ _ _ h
        rw [hout] at h
        exact ⟨s1, tail, rfl, h, hout⟩

/-- Witness for claim C10 at a concrete input: prior contents `[Q]` are kept
as a prefix of the successful result. -/
theorem solve_appends_frame_witness :
    SolveFuel 0 ['a'] ['a'] [] [['Q']] = some (some ([['Q']] ++ ([] ++ ReverseMoves []))) :=
  (solve_appends_frame 0 ['a'] ['a'] [] [['Q']]).1 [] [] (by decide)


/-! ## The primitive cycle rotation (claim C2) -/

/-- Helper: `getD` after `set` at a different position is unchanged. -/
theorem getD_set_ne_thm (l : List Char) (v : Char) (w p : Nat) (h : w ≠ p) :
    (l.set w v).getD p defCh = l.getD p defCh := by
  rw [List.getD_eq_getElem?_getD, List.getD_eq_getElem?_getD, List.getElem?_set_ne h]

/-- Helper: `getD` after `set` at the same in-range position is the new value. -/
theorem getD_set_self_thm (l : List Char) (v : Char) (w : Nat) (h : w < l.length) :
    (l.set w v).getD w defCh = v := by
  rw [List.getD_eq_getElem?_getD, List.getElem?_set_self h]; rfl

/-- Helper: an in-range `getD` of the cycle is a member of the cycle. -/
theorem getD_mem_of_lt (c : List Nat) (k : Nat) (h : k < c.length) : c.getD k 0 ∈ c := by
  rw [List.getD_eq_getElem _ _ h]; exact List.getElem_mem h

/-- Helper: distinct in-range positions of a duplicate-free cycle hold
distinct indices. -/
theorem nodup_getD_ne (c : List Nat) (h : c.Nodup) (p q : Nat)
    (hp : p < c.length) (hq : q < c.length) (hne : p ≠ q) :
    c.getD p 0 ≠ c.getD q 0 := by
  rw [List.getD_eq_getElem _ _ hp, List.getD_eq_getElem _ _ hq]
  intro he
  exact hne ((h.getElem_inj_iff).mp he)

/-- The rotation loop preserves the state length. -/
theorem cycleLoop_length (c : List Nat) (n : Nat) :
    ∀ (i : Nat) (cube : List Char), (cycleLoop c n i cube).length = cube.length := by
  intro i
  induction i with
  | zero => intro cube; rfl
  | succ i ih =>
      intro cube
      simp only [cycleLoop]
      rw [ih]
      exact List.length_set ..

/-- Frame property of the rotation loop: a position different from every
write target `cycle[(j+1) % n]`, `1 ≤ j ≤ i`, is unchanged. -/
theorem cycleLoop_frame (c : List Nat) (n : Nat) :
    ∀ (i : Nat) (cube : List Char) (p : Nat),
      (∀ j, 1 ≤ j → j ≤ i → p ≠ c.getD ((j + 1) % n) 0) →
      (cycleLoop c n i cube).getD p defCh = cube.getD p defCh := by
  intro i
  induction i with
  | zero => intro cube p _; rfl
  | succ i ih =>
      intro cube p hp
      simp only [cycleLoop]
      rw [ih _ _ (fun j h1 h2 => hp j h1 (Nat.le_succ_of_le h2))]
      exact getD_set_ne_thm _ _ _ _ (Ne.symm (hp (i + 1) (by omega) (le_refl _)))

/-- Write property of the rotation loop: after iterations `i` down to `1`,
position `cycle[(j+1) % n]` holds the input's symbol at `cycle[j]` for every
`1 ≤ j ≤ i` (indices distinct and in range, `i ≤ n - 1`, `2 ≤ n`). -/
theorem cycleLoop_written (c : List Nat) (n : Nat) (hn : n = c.length) (h2 : 2 ≤ n)
    (hnd : c.Nodup) :
    ∀ (i : Nat) (cube : List Char), i ≤ n - 1 → (∀ q ∈ c, q < cube.length) →
      ∀ j, 1 ≤ j → j ≤ i →
      (cycleLoop c n i cube).getD (c.getD ((j + 1) % n) 0) defCh
        = cube.getD (c.getD j 0) defCh := by
  subst hn
  intro i
  induction i with
  | zero => intro cube _ _ j hj1 hj2; omega
  | succ i ih =>
      intro cube hi hlen j hj1 hj2
      simp only [cycleLoop]
      rcases Nat.lt_or_ge j (i + 1) with hj | hj
      · have hji : j ≤ i := by omega
        rw [ih _ (by omega) (fun q hq => by rw [List.length_set]; exact hlen q hq) j hj1 hji]
        apply getD_set_ne_thm
        apply nodup_getD_ne c hnd
        · exact Nat.mod_lt _ (by omega)
        · omega
        · rcases Nat.lt_or_ge (i + 2) c.length with hlt | hge
          · rw [Nat.mod_eq_of_lt hlt]; omega
          · have he : i + 2 = c.length := by omega
            rw [he, Nat.mod_self]; omega
      · have hje : j = i + 1 := by omega
        subst hje
        rw [cycleLoop_frame c c.length i _ _ ?frame]
        case frame =>
          intro j' hj1' hj2'
          apply nodup_getD_ne c hnd
          · exact Nat.mod_lt _ (by omega)
          · exact Nat.mod_lt _ (by omega)
          · have hj'lt : (j' + 1) % c.length = j' + 1 := Nat.mod_eq_of_lt (by omega)
            rcases Nat.lt_or_ge (i + 1 + 1) c.length with hlt | hge
            · rw [Nat.mod_eq_of_lt hlt, hj'lt]; omega
            · have he : i + 1 + 1 = c.length := by omega
              rw [he, Nat.mod_self, hj'lt]; omega
        exact getD_set_self_thm _ _ _
          (hlen _ (getD_mem_of_lt c _ (Nat.mod_lt _ (by omega))))

/-- Claim C2: applying `TSimpleCycleMove::Apply` with distinct in-range
indices (at least two of them: the code reads `Cycle[1]`) performs exactly
the single-step rotation — position `indices[(j+1) mod k]` receives the old
symbol of `indices[j]` for every `j`, the length is unchanged, and every
position not named in the cycle is unchanged. -/
theorem simpleCycleMove_spec (c : List Nat) (cube : List Char)
    (hnd : c.Nodup) (hk : 2 ≤ c.length) (hin : ∀ i ∈ c, i < cube.length) :
    (applyCycle c cube).length = cube.length ∧
    (∀ j, j < c.length →
      (applyCycle c cube).getD (c.getD ((j + 1) % c.length) 0) defCh
        = cube.getD (c.getD j 0) defCh) ∧
    (∀ p, p ∉ c → (applyCycle c cube).getD p defCh = cube.getD p defCh) := by
  refine ⟨?_, ?_, ?_⟩
  · simp only [applyCycle]
    rw [List.length_set]
    exact cycleLoop_length ..
  · intro j hj
    simp only [applyCycle]
    rcases Nat.eq_zero_or_pos j with hj0 | hj1
    · subst hj0
      have h1 : (0 + 1) % c.length = 1 := Nat.mod_eq_of_lt (by omega)
      rw [h1]
      exact getD_set_self_thm _ _ _
        (by rw [cycleLoop_length]; exact hin _ (getD_mem_of_lt c 1 (by omega)))
    · have hne : c.getD 1 0 ≠ c.getD ((j + 1) % c.length) 0 := by
        apply nodup_getD_ne c hnd
        · omega
        · exact Nat.mod_lt _ (by omega)
        · rcases Nat.lt_or_ge (j + 1) c.length with hlt | hge
          · rw [Nat.mod_eq_of_lt hlt]; omega
          · have he : j + 1 = c.length := by omega
            rw [he, Nat.mod_self]; omega
      rw [getD_set_ne_thm _ _ _ _ hne]
      exact cycleLoop_written c c.length rfl hk hnd (c.length - 1) cube (le_refl _) hin
        j hj1 (by omega)
  · intro p hp
    simp only [applyCycle]
    rw [getD_set_ne_thm _ _ _ _
      (fun he => hp (by rw [← he]; exact getD_mem_of_lt c 1 (by omega)))]
    apply cycleLoop_frame
    intro j hj1 hj2 he
    exact hp (by rw [he]; exact getD_mem_of_lt c _ (Nat.mod_lt _ (by omega)))

/-- Witness for claim C2 on the cycle `[0, 2, 3]` over a 4-symbol state:
position 2 receives the old symbol of position 0, and position 1 (not on the
cycle) is unchanged. -/
theorem simpleCycleMove_spec_witness :
    (applyCycle [0, 2, 3] ['a', 'b', 'c', 'd']).getD 2 defCh
        = (['a', 'b', 'c', 'd'] : List Char).getD 0 defCh ∧
    (applyCycle [0, 2, 3] ['a', 'b', 'c', 'd']).getD 1 defCh
        = (['a', 'b', 'c', 'd'] : List Char).getD 1 defCh := by
  constructor
  · exact (simpleCycleMove_spec [0, 2, 3] ['a', 'b', 'c', 'd'] (by decide) (by decide)
      (by decide)).2.1 0 (by decide)
  · exact (simpleCycleMove_spec [0, 2, 3] ['a', 'b', 'c', 'd'] (by decide) (by decide)
      (by decide)).2.2 1 (by decide)

/-! ## Index-level semantics of moves -/

/-- The function `applyCycle` preserves the state length (no hypotheses needed). -/
theorem applyCycle_length_all (c : List Nat) (cube : List Char) :
    (applyCycle c cube).length = cube.length := by
  simp only [applyCycle]
  rw [List.length_set]
  exact cycleLoop_length ..

/-- The function `TMove.apply` preserves the state length. -/
theorem apply_length (m : TMove) : ∀ cube : List Char,
    (TMove.apply m cube).length = cube.length := by
  induction m with
  | empty => intro cube; rfl
  | cycle c => intro cube; exact applyCycle_length_all c cube
  | comp l r ihl ihr =>
      intro cube
      simp only [TMove.apply]
      rw [ihr, ihl]

/-- Pointwise description of a valid cycle application: position `p` of the
result holds the input's symbol at `cycIdx c p`. -/
theorem applyCycle_getD (c : List Nat) (cube : List Char)
    (hnd : c.Nodup) (hk : 2 ≤ c.length) (hin : ∀ i ∈ c, i < cube.length) (p : Nat) :
    (applyCycle c cube).getD p defCh = cube.getD (cycIdx c p) defCh := by
  by_cases hp : p ∈ c
  · have hm : List.indexOf p c < c.length := List.indexOf_lt_length.mpr hp
    have hlt : (List.indexOf p c + c.length - 1) % c.length < c.length :=
      Nat.mod_lt _ (by omega)
    have hj : ((List.indexOf p c + c.length - 1) % c.length + 1) % c.length
        = List.indexOf p c := by
      rw [Nat.mod_add_mod]
      have h1 : List.indexOf p c + c.length - 1 + 1 = List.indexOf p c + c.length := by
        omega
      rw [h1, Nat.add_mod_right]
      exact Nat.mod_eq_of_lt hm
    have hB := (simpleCycleMove_spec c cube hnd hk hin).2.1
      ((List.indexOf p c + c.length - 1) % c.length) hlt
    rw [hj] at hB
    have hcp : c.getD (List.indexOf p c) 0 = p := by
      rw [List.getD_eq_getElem _ _ hm]
      exact List.getElem_indexOf hm
    rw [hcp] at hB
    rw [hB]
    simp only [cycIdx]
    rw [if_pos hp]
  · rw [(simpleCycleMove_spec c cube hnd hk hin).2.2 p hp]
    simp only [cycIdx]
    rw [if_neg hp]

/-- Pointwise description of a valid move application. -/
theorem apply_getD_valid : ∀ (m : TMove) (cube : List Char),
    ValidMove cube.length m →
    ∀ p, (TMove.apply m cube).getD p defCh = cube.getD (moveIdx m p) defCh := by
  intro m
  induction m with
  | empty => intro cube _ p; rfl
  | cycle c =>
      intro cube hv p
      simp only [ValidMove] at hv
      exact applyCycle_getD c cube hv.1 hv.2.1 hv.2.2 p
  | comp l r ihl ihr =>
      intro cube hv p
      simp only [ValidMove] at hv
      simp only [TMove.apply, moveIdx]
      rw [ihr (TMove.apply l cube) (by rw [apply_length]; exact hv.2) p]
      exact ihl cube hv.1 (moveIdx r p)

/-- The index map of a valid move maps in-range positions to in-range positions. -/
theorem moveIdx_lt : ∀ (m : TMove) (L : Nat), ValidMove L m →
    ∀ p, p < L → moveIdx m p < L := by
  intro m
  induction m with
  | empty => intro L _ p hp; exact hp
  | cycle c =>
      intro L hv p hp
      simp only [ValidMove] at hv
      simp only [moveIdx, cycIdx]
      by_cases hmem : p ∈ c
      · rw [if_pos hmem]
        exact hv.2.2 _ (getD_mem_of_lt c _ (Nat.mod_lt _ (by omega)))
      · rw [if_neg hmem]; exact hp
  | comp l r ihl ihr =>
      intro L hv p hp
      simp only [ValidMove] at hv
      simp only [moveIdx]
      exact ihl L hv.1 _ (ihr L hv.2 p hp)

/-- The index map of a valid move fixes every out-of-range position. -/
theorem moveIdx_fixed_of_ge : ∀ (m : TMove) (L : Nat), ValidMove L m →
    ∀ p, L ≤ p → moveIdx m p = p := by
  intro m
  induction m with
  | empty => intro L _ p _; rfl
  | cycle c =>
      intro L hv p hp
      simp only [ValidMove] at hv
      simp only [moveIdx, cycIdx]
      rw [if_neg (fun hmem => by have := hv.2.2 p hmem; omega)]
  | comp l r ihl ihr =>
      intro L hv p hp
      simp only [ValidMove] at hv
      simp only [moveIdx]
      rw [ihr L hv.2 p hp, ihl L hv.1 p hp]

/-- The index map of a valid move is surjective on in-range positions. -/
theorem moveIdx_surj : ∀ (m : TMove) (L : Nat), ValidMove L m →
    ∀ q, q < L → ∃ p, p < L ∧ moveIdx m p = q := by
  intro m
  induction m with
  | empty => intro L _ q hq; exact ⟨q, hq, rfl⟩
  | cycle c =>
      intro L hv q hq
      simp only [ValidMove] at hv
      obtain ⟨hnd, hk, hin⟩ := hv
      by_cases hqc : q ∈ c
      · have hmq : List.indexOf q c < c.length := List.indexOf_lt_length.mpr hqc
        refine ⟨c.getD ((List.indexOf q c + 1) % c.length) 0, ?_, ?_⟩
        · exact hin _ (getD_mem_of_lt c _ (Nat.mod_lt _ (by omega)))
        · simp only [moveIdx, cycIdx]
          have hpmem : c.getD ((List.indexOf q c + 1) % c.length) 0 ∈ c :=
            getD_mem_of_lt c _ (Nat.mod_lt _ (by omega))
          rw [if_pos hpmem]
          have hidx : List.indexOf (c.getD ((List.indexOf q c + 1) % c.length) 0) c
              = (List.indexOf q c + 1) % c.length := by
            have hlt : (List.indexOf q c + 1) % c.length < c.length :=
              Nat.mod_lt _ (by omega)
            rw [List.getD_eq_getElem _ _ hlt]
            exact List.indexOf_getElem hnd _ hlt
          rw [hidx]
          have harith : ((List.indexOf q c + 1) % c.length + c.length - 1) % c.length
              = List.indexOf q c := by
            have h1 : (List.indexOf q c + 1) % c.length + c.length - 1
                = (List.indexOf q c + 1) % c.length + (c.length - 1) := by omega
            rw [h1, Nat.mod_add_mod]
            have h2 : List.indexOf q c + 1 + (c.length - 1)
                = List.indexOf q c + c.length := by omega
            rw [h2, Nat.add_mod_right]
            exact Nat.mod_eq_of_lt hmq
          rw [harith]
          rw [List.getD_eq_getElem _ _ hmq]
          exact List.getElem_indexOf hmq
      · refine ⟨q, hq, ?_⟩
        simp only [moveIdx, cycIdx]
        rw [if_neg hqc]
  | comp l r ihl ihr =>
      intro L hv q hq
      simp only [ValidMove] at hv
      obtain ⟨p1, hp1, he1⟩ := ihl L hv.1 q hq
      obtain ⟨p, hp, he⟩ := ihr L hv.2 p1 hp1
      refine ⟨p, hp, ?_⟩
      simp only [moveIdx]
      rw [he, he1]

/-- A valid move whose index map is the identity on `[0, L)` acts as the
identity on every state of length `L`. -/
theorem apply_id_of_moveIdx (m : TMove) (cube : St) (L : Nat) (hL : cube.length = L)
    (hv : ValidMove L m) (hsmall : ∀ p, p < L → moveIdx m p = p) :
    TMove.apply m cube = cube := by
  apply List.ext_getElem (by rw [apply_length])
  intro q hq1 hq2
  have h1 := apply_getD_valid m cube (by rw [hL]; exact hv) q
  rw [hsmall q (by omega)] at h1
  rw [List.getD_eq_getElem _ _ hq1, List.getD_eq_getElem _ _ hq2] at h1
  exact h1

/-! ## Catalog laws (claims C4 and C5) -/

set_option maxRecDepth 100000

/-- Claim C4: the quarter-turn catalog entries `U` and `D` applied four
times reproduce every 42-symbol state, and the half-turn entries `U2`, `D2`
are the quarter turn composed with itself, so they act on every state as two
applications of the corresponding quarter turn. -/
theorem catalog_quarter_half (cube : St) (h : cube.length = 42) :
    lookupA GenerateAllMoves lblU = some mU ∧
    lookupA GenerateAllMoves lblD = some mD ∧
    lookupA GenerateAllMoves lblU2 = some (TMove.comp mU mU) ∧
    lookupA GenerateAllMoves lblD2 = some (TMove.comp mD mD) ∧
    TMove.apply mU (TMove.apply mU (TMove.apply mU (TMove.apply mU cube))) = cube ∧
    TMove.apply mD (TMove.apply mD (TMove.apply mD (TMove.apply mD cube))) = cube ∧
    (∀ x : St, TMove.apply (TMove.comp mU mU) x = TMove.apply mU (TMove.apply mU x)) ∧
    (∀ x : St, TMove.apply (TMove.comp mD mD) x = TMove.apply mD (TMove.apply mD x)) := by
  refine ⟨by decide, by decide, by decide, by decide, ?_, ?_, fun x => rfl, fun x => rfl⟩
  · show TMove.apply (TMove.comp mU (TMove.comp mU (TMove.comp mU mU))) cube = cube
    exact apply_id_of_moveIdx _ cube 42 h (by decide) (by decide)
  · show TMove.apply (TMove.comp mD (TMove.comp mD (TMove.comp mD mD))) cube = cube
    exact apply_id_of_moveIdx _ cube 42 h (by decide) (by decide)

/-- Witness for claim C4 at the concrete goal state of `main`. -/
theorem catalog_quarter_half_witness :
    TMove.apply mU (TMove.apply mU (TMove.apply mU (TMove.apply mU cube42))) = cube42 :=
  (catalog_quarter_half cube42 (by decide)).2.2.2.2.1

/-- Claim C5: every catalog label composed with the catalog move named by its
individual inversion returns every 42-symbol state to its prior value. -/
theorem catalog_inversion (lm : Label × TMove) (hm : lm ∈ GenerateAllMoves)
    (cube : St) (h : cube.length = 42) :
    ∃ mv2, lookupA GenerateAllMoves (invertMove lm.1) = some mv2 ∧
      TMove.apply mv2 (TMove.apply lm.2 cube) = cube := by
  simp only [GenerateAllMoves, List.mem_cons, List.not_mem_nil, or_false] at hm
  rcases hm with h1 | h1 | h1 | h1 | h1 | h1 | h1 | h1 | h1 | h1
  · subst h1
    refine ⟨mL2, by decide, ?_⟩
    show TMove.apply (TMove.comp mL2 mL2) cube = cube
    exact apply_id_of_moveIdx _ cube 42 h (by decide) (by decide)
  · subst h1
    refine ⟨mR2, by decide, ?_⟩
    show TMove.apply (TMove.comp mR2 mR2) cube = cube
    exact apply_id_of_moveIdx _ cube 42 h (by decide) (by decide)
  · subst h1
    refine ⟨mF2, by decide, ?_⟩
    show TMove.apply (TMove.comp mF2 mF2) cube = cube
    exact apply_id_of_moveIdx _ cube 42 h (by decide) (by decide)
  · subst h1
    refine ⟨mB2, by decide, ?_⟩
    show TMove.apply (TMove.comp mB2 mB2) cube = cube
    exact apply_id_of_moveIdx _ cube 42 h (by decide) (by decide)
  · subst h1
    refine ⟨TMove.comp mU (TMove.comp mU mU), by decide, ?_⟩
    show TMove.apply (TMove.comp mU (TMove.comp mU (TMove.comp mU mU))) cube = cube
    exact apply_id_of_moveIdx _ cube 42 h (by decide) (by decide)
  · subst h1
    refine ⟨TMove.comp mU mU, by decide, ?_⟩
    show TMove.apply (TMove.comp (TMove.comp mU mU) (TMove.comp mU mU)) cube = cube
    exact apply_id_of_moveIdx _ cube 42 h (by decide) (by decide)
  · subst h1
    refine ⟨mU, by decide, ?_⟩
    show TMove.apply (TMove.comp (TMove.comp mU (TMove.comp mU mU)) mU) cube = cube
    exact apply_id_of_moveIdx _ cube 42 h (by decide) (by decide)
  · subst h1
    refine ⟨TMove.comp mD (TMove.comp mD mD), by decide, ?_⟩
    show TMove.apply (TMove.comp mD (TMove.comp mD (TMove.comp mD mD))) cube = cube
    exact apply_id_of_moveIdx _ cube 42 h (by decide) (by decide)
  · subst h1
    refine ⟨TMove.comp mD mD, by decide, ?_⟩
    show TMove.apply (TMove.comp (TMove.comp mD mD) (TMove.comp mD mD)) cube = cube
    exact apply_id_of_moveIdx _ cube 42 h (by decide) (by decide)
  · subst h1
    refine ⟨mD, by decide, ?_⟩
    show TMove.apply (TMove.comp (TMove.comp mD (TMove.comp mD mD)) mD) cube = cube
    exact apply_id_of_moveIdx _ cube 42 h (by decide) (by decide)

/-- Witness for claim C5 at the `U` entry and the concrete goal state. -/
theorem catalog_inversion_witness :
    ∃ mv2, lookupA GenerateAllMoves (invertMove (lblU, mU).1) = some mv2 ∧
      TMove.apply mv2 (TMove.apply (lblU, mU).2 cube42) = cube42 :=
  catalog_inversion (lblU, mU) (by decide) cube42 (by decide)

/-! ## Association-list lemmas -/

/-- Key membership restated through entries. -/
theorem mem_keys {α : Type} (d : List (Label × α)) (x : Label) :
    x ∈ keys d ↔ ∃ v, (x, v) ∈ d := by
  simp only [keys, List.mem_map]
  constructor
  · rintro ⟨⟨k, v⟩, hm, rfl⟩; exact ⟨v, hm⟩
  · rintro ⟨v, hm⟩; exact ⟨(x, v), hm, rfl⟩

/-- A lookup misses exactly when the key is absent. -/
theorem lookupA_eq_none {α : Type} (d : List (Label × α)) (k : Label) :
    lookupA d k = none ↔ k ∉ keys d := by
  induction d with
  | nil => simp [lookupA, keys]
  | cons kv rest ih =>
      obtain ⟨k', v⟩ := kv
      by_cases he : k' = k
      · subst he
        simp only [lookupA, if_pos rfl, keys, List.map_cons]
        constructor
        · intro h; exact absurd h (by simp)
        · intro h; exact absurd (List.mem_cons_self _ _) h
      · simp only [lookupA, if_neg he, keys, List.map_cons, List.mem_cons]
        rw [ih]
        constructor
        · intro h hcon
          rcases hcon with h1 | h1
          · exact he h1.symm
          · exact h h1
        · intro h h1
          exact h (Or.inr h1)

/-- A successful lookup returns an entry of the list. -/
theorem lookupA_mem {α : Type} : ∀ (d : List (Label × α)) (k : Label) (v : α),
    lookupA d k = some v → (k, v) ∈ d := by
  intro d
  induction d with
  | nil => intro k v h; simp [lookupA] at h
  | cons kv rest ih =>
      intro k v h
      obtain ⟨k', v'⟩ := kv
      simp only [lookupA] at h
      by_cases he : k' = k
      · rw [if_pos he] at h
        subst he
        obtain rfl : v' = v := by injection h
        exact List.mem_cons_self _ _
      · rw [if_neg he] at h
        exact List.mem_cons_of_mem _ (ih k v h)

/-- With duplicate-free keys, every entry is found by lookup. -/
theorem lookupA_of_mem_nodup {α : Type} : ∀ (d : List (Label × α)),
    (keys d).Nodup → ∀ (k : Label) (v : α), (k, v) ∈ d → lookupA d k = some v := by
  intro d
  induction d with
  | nil => intro _ k v h; simp at h
  | cons kv rest ih =>
      intro hnd k v h
      obtain ⟨k', v'⟩ := kv
      simp only [keys, List.map_cons, List.nodup_cons] at hnd
      rcases List.mem_cons.mp h with he | hm
      · rw [Prod.mk.injEq] at he
        obtain ⟨rfl, rfl⟩ := he
        simp [lookupA]
      · have hne : k' ≠ k := by
          intro he'
          subst he'
          exact hnd.1 ((mem_keys rest k').mpr ⟨v, hm⟩)
        simp only [lookupA, if_neg hne]
        exact ih hnd.2 k v hm

/-- A present key has a successful lookup. -/
theorem lookupA_isSome_of_mem {α : Type} (d : List (Label × α)) (k : Label)
    (h : k ∈ keys d) : ∃ v, lookupA d k = some v := by
  cases hl : lookupA d k with
  | none =>
      rw [lookupA_eq_none] at hl
      exact absurd h hl
  | some v => exact ⟨v, rfl⟩

/-! ## Symbol alphabet and size bounds -/

/-- A `getD` read is a member of the list or the default. -/
theorem getD_mem_or_default (l : List Char) (n : Nat) :
    l.getD n defCh ∈ l ∨ l.getD n defCh = defCh := by
  rcases Nat.lt_or_ge n l.length with h | h
  · left; rw [List.getD_eq_getElem _ _ h]; exact List.getElem_mem h
  · right; exact List.getD_eq_default _ _ h

/-- The rotation loop introduces no symbol beyond the input's and the
totalization default. -/
theorem cycleLoop_chars (c : List Nat) (n : Nat) :
    ∀ (i : Nat) (cube : List Char) (ch : Char),
      ch ∈ cycleLoop c n i cube → ch ∈ cube ∨ ch = defCh := by
  intro i
  induction i with
  | zero => intro cube ch h; exact Or.inl h
  | succ i ih =>
      intro cube ch h
      simp only [cycleLoop] at h
      rcases ih _ ch h with hm | hd
      · rcases List.mem_or_eq_of_mem_set hm with hm2 | he
        · exact Or.inl hm2
        · rw [he]; exact getD_mem_or_default cube _
      · exact Or.inr hd

/-- A cycle application introduces no symbol beyond the input's and the
default. -/
theorem applyCycle_chars (c : List Nat) (cube : List Char) (ch : Char)
    (h : ch ∈ applyCycle c cube) : ch ∈ cube ∨ ch = defCh := by
  simp only [applyCycle] at h
  rcases List.mem_or_eq_of_mem_set h with hm | he
  · exact cycleLoop_chars c _ _ cube ch hm
  · rw [he]; exact getD_mem_or_default cube _

/-- A move application introduces no symbol beyond the input's and the
default. -/
theorem apply_chars (m : TMove) : ∀ (cube : List Char) (ch : Char),
    ch ∈ TMove.apply m cube → ch ∈ cube ∨ ch = defCh := by
  induction m with
  | empty => intro cube ch h; exact Or.inl h
  | cycle c => intro cube ch h; exact applyCycle_chars c cube ch h
  | comp l r ihl ihr =>
      intro cube ch h
      rcases ihr _ ch h with hm | hd
      · exact ihl cube ch hm
      · exact Or.inr hd

/-- Every list of length `n` over alphabet `A` is enumerated by `allLists`. -/
theorem allLists_complete (A : List Char) : ∀ (n : Nat) (l : List Char),
    l.length = n → (∀ ch ∈ l, ch ∈ A) → l ∈ allLists A n := by
  intro n
  induction n with
  | zero =>
      intro l h _
      rw [List.length_eq_zero] at h
      subst h
      simp [allLists]
  | succ n ih =>
      intro l h hch
      cases l with
      | nil => simp at h
      | cons c t =>
          simp only [allLists, List.mem_flatMap]
          refine ⟨c, hch c (List.mem_cons_self _ _), ?_⟩
          simp only [List.mem_map]
          exact ⟨t, ih t (by simpa using h)
            (fun ch hc => hch ch (List.mem_cons_of_mem _ hc)), rfl⟩

/-- Reachability preserves the state length. -/
theorem reach_length (cat : Catalog) (x y : St) (h : Reach cat x y) :
    y.length = x.length := by
  induction h with
  | refl => rfl
  | tail h1 h2 ih =>
      obtain ⟨lm, _, he⟩ := h2
      rw [← he, apply_length]
      exact ih

/-- Reachable states use only the root's symbols plus the default. -/
theorem reach_chars (cat : Catalog) (x y : St) (h : Reach cat x y) :
    ∀ ch ∈ y, ch ∈ defCh :: x := by
  induction h with
  | refl => intro ch hc; exact List.mem_cons_of_mem _ hc
  | tail h1 h2 ih =>
      intro ch hc
      obtain ⟨lm, _, he⟩ := h2
      rw [← he] at hc
      rcases apply_chars lm.2 _ ch hc with hm | hd
      · exact ih ch hm
      · rw [hd]; exact List.mem_cons_self _ _

/-- Every state reachable from `a` is in the finite enumeration behind
`bndOf a`. -/
theorem reach_mem_allLists (cat : Catalog) (a x : St) (h : Reach cat a x) :
    x ∈ allLists (defCh :: a) a.length :=
  allLists_complete _ _ x (reach_length cat a x h) (reach_chars cat a x h)

/-- A visited dictionary never exceeds the finite state-space bound. -/
theorem dict_bound (cat : Catalog) (root : St) (d : Dict) (hnd : (keys d).Nodup)
    (hr : ∀ x ∈ keys d, Reach cat root x) : d.length ≤ bndOf root := by
  have h1 : d.length = (keys d).length := (List.length_map _ _).symm
  rw [h1, ← List.toFinset_card_of_nodup hnd]
  calc (keys d).toFinset.card
      ≤ (allLists (defCh :: root) root.length).toFinset.card := by
        apply Finset.card_le_card
        intro x hx
        rw [List.mem_toFinset] at hx ⊢
        exact reach_mem_allLists cat root x (hr x hx)
    _ ≤ (allLists (defCh :: root) root.length).length := List.toFinset_card_le _
    _ = bndOf root := rfl

/-! ## Properties of the inner expansion loop -/

/-- Structural facts about a completed expansion: entries are preserved, the
queue only grows at the back, and dictionary and queue grow in lock-step. -/
theorem expandLoop_inl_struct (current : St) (curPath : MPath) :
    ∀ (ms : List (Label × TMove)) (myR otherR : Dict) (myQ : List St)
      (myR' : Dict) (myQ' : List St),
      expandLoop current curPath ms myR otherR myQ = Sum.inl (myR', myQ') →
      (∀ kv ∈ myR, kv ∈ myR') ∧
      (∃ app, myQ' = myQ ++ app) ∧
      myR'.length + myQ.length = myR.length + myQ'.length := by
  intro ms
  induction ms with
  | nil =>
      intro myR otherR myQ myR' myQ' h
      simp only [expandLoop, Sum.inl.injEq, Prod.mk.injEq] at h
      obtain ⟨h1, h2⟩ := h
      subst h1; subst h2
      exact ⟨fun kv hkv => hkv, ⟨[], by simp⟩, rfl⟩
  | cons lm rest ih =>
      intro myR otherR myQ myR' myQ' h
      cases hmy : lookupA myR (TMove.apply lm.2 current) with
      | none =>
          cases hot : lookupA otherR (TMove.apply lm.2 current) with
          | some p => simp [expandLoop, hmy, hot] at h
          | none =>
              simp only [expandLoop, hmy, hot] at h
              obtain ⟨ha, ⟨app, hq⟩, hc⟩ := ih _ _ _ _ _ h
              refine ⟨fun kv hkv => ha kv (List.mem_cons_of_mem _ hkv),
                ⟨TMove.apply lm.2 current :: app, by rw [hq, List.append_assoc]; rfl⟩, ?_⟩
              simp only [List.length_append, List.length_cons, List.length_nil] at hc ⊢
              omega
      | some myP =>
          cases hot : lookupA otherR (TMove.apply lm.2 current) with
          | some p => simp [expandLoop, hmy, hot] at h
          | none =>
              simp only [expandLoop, hmy, hot] at h
              exact ih _ _ _ _ _ h

/-- Classification of the entries of a completed expansion: an entry is
either an input entry, or a successor of `current` recorded with
`curPath ++ [label]`, absent from the opposite dictionary (otherwise the
expansion would have returned) and still pending in the output queue. -/
theorem expandLoop_inl_new (current : St) (curPath : MPath) :
    ∀ (ms : List (Label × TMove)) (myR otherR : Dict) (myQ : List St)
      (myR' : Dict) (myQ' : List St),
      expandLoop current curPath ms myR otherR myQ = Sum.inl (myR', myQ') →
      ∀ kv ∈ myR', kv ∈ myR ∨
        ∃ lm, lm ∈ ms ∧ kv.1 = TMove.apply lm.2 current ∧ kv.2 = curPath ++ [lm.1] ∧
          kv.1 ∉ keys otherR ∧ kv.1 ∈ myQ' := by
  intro ms
  induction ms with
  | nil =>
      intro myR otherR myQ myR' myQ' h kv hkv
      simp only [expandLoop, Sum.inl.injEq, Prod.mk.injEq] at h
      obtain ⟨h1, h2⟩ := h
      subst h1
      exact Or.inl hkv
  | cons lm rest ih =>
      intro myR otherR myQ myR' myQ' h kv hkv
      cases hmy : lookupA myR (TMove.apply lm.2 current) with
      | none =>
          cases hot : lookupA otherR (TMove.apply lm.2 current) with
          | some p => simp [expandLoop, hmy, hot] at h
          | none =>
              simp only [expandLoop, hmy, hot] at h
              rcases ih _ _ _ _ _ h kv hkv with hold | ⟨lm', hlm', h1, h2, h3, h4⟩
              · rcases List.mem_cons.mp hold with he | hm
                · subst he
                  refine Or.inr ⟨lm, List.mem_cons_self _ _, rfl, rfl, ?_, ?_⟩
                  · rw [← lookupA_eq_none]; exact hot
                  · obtain ⟨-, ⟨app, hq⟩, -⟩ :=
                      expandLoop_inl_struct current curPath rest _ _ _ _ _ h
                    rw [hq]
                    simp
                · exact Or.inl hm
              · exact Or.inr ⟨lm', List.mem_cons_of_mem _ hlm', h1, h2, h3, h4⟩
      | some myP =>
          cases hot : lookupA otherR (TMove.apply lm.2 current) with
          | some p => simp [expandLoop, hmy, hot] at h
          | none =>
              simp only [expandLoop, hmy, hot] at h
              rcases ih _ _ _ _ _ h kv hkv with hold | ⟨lm', hlm', hrest⟩
              · exact Or.inl hold
              · exact Or.inr ⟨lm', List.mem_cons_of_mem _ hlm', hrest⟩

/-- Invariant preservation through a completed expansion: duplicate-free
keys and queue, queue membership in the keys, plus closure — every
successor of `current` by a processed move is recorded. -/
theorem expandLoop_inl_inv (current : St) (curPath : MPath) :
    ∀ (ms : List (Label × TMove)) (myR otherR : Dict) (myQ : List St)
      (myR' : Dict) (myQ' : List St),
      expandLoop current curPath ms myR otherR myQ = Sum.inl (myR', myQ') →
      (keys myR).Nodup → myQ.Nodup → (∀ x ∈ myQ, x ∈ keys myR) →
      (keys myR').Nodup ∧ myQ'.Nodup ∧ (∀ x ∈ myQ', x ∈ keys myR') ∧
      (∀ lm ∈ ms, TMove.apply lm.2 current ∈ keys myR') := by
  intro ms
  induction ms with
  | nil =>
      intro myR otherR myQ myR' myQ' h hnd hqnd hqs
      simp only [expandLoop, Sum.inl.injEq, Prod.mk.injEq] at h
      obtain ⟨h1, h2⟩ := h
      subst h1; subst h2
      exact ⟨hnd, hqnd, hqs, by simp⟩
  | cons lm rest ih =>
      intro myR otherR myQ myR' myQ' h hnd hqnd hqs
      cases hmy : lookupA myR (TMove.apply lm.2 current) with
      | none =>
          cases hot : lookupA otherR (TMove.apply lm.2 current) with
          | some p => simp [expandLoop, hmy, hot] at h
          | none =>
              simp only [expandLoop, hmy, hot] at h
              have hnotin : TMove.apply lm.2 current ∉ keys myR := by
                rw [← lookupA_eq_none]; exact hmy
              have hnd2 : (keys ((TMove.apply lm.2 current, curPath ++ [lm.1]) :: myR)).Nodup := by
                simp only [keys, List.map_cons, List.nodup_cons]
                exact ⟨hnotin, hnd⟩
              have hqnd2 : (myQ ++ [TMove.apply lm.2 current]).Nodup := by
                rw [List.nodup_append]
                refine ⟨hqnd, List.nodup_singleton _, ?_⟩
                intro x hx
                simp only [List.mem_singleton]
                intro he
                rw [he] at hx
                exact hnotin (hqs _ hx)
              have hqs2 : ∀ x ∈ myQ ++ [TMove.apply lm.2 current],
                  x ∈ keys ((TMove.apply lm.2 current, curPath ++ [lm.1]) :: myR) := by
                intro x hx
                simp only [keys, List.map_cons, List.mem_cons]
                rcases List.mem_append.mp hx with h1 | h1
                · exact Or.inr (hqs x h1)
                · simp only [List.mem_singleton] at h1
                  exact Or.inl h1
              obtain ⟨a1, a2, a3, a4⟩ := ih _ _ _ _ _ h hnd2 hqnd2 hqs2
              refine ⟨a1, a2, a3, ?_⟩
              intro lm' hlm'
              rcases List.mem_cons.mp hlm' with he | hm
              · subst he
                have hself : TMove.apply lm'.2 current
                    ∈ keys ((TMove.apply lm'.2 current, curPath ++ [lm'.1]) :: myR) := by
                  simp [keys]
                obtain ⟨hpres, -, -⟩ :=
                  expandLoop_inl_struct current curPath rest _ _ _ _ _ h
                rw [mem_keys] at hself ⊢
                obtain ⟨v, hv⟩ := hself
                exact ⟨v, hpres _ hv⟩
              · exact a4 lm' hm
      | some myP =>
          cases hot : lookupA otherR (TMove.apply lm.2 current) with
          | some p => simp [expandLoop, hmy, hot] at h
          | none =>
              simp only [expandLoop, hmy, hot] at h
              obtain ⟨a1, a2, a3, a4⟩ := ih _ _ _ _ _ h hnd hqnd hqs
              refine ⟨a1, a2, a3, ?_⟩
              intro lm' hlm'
              rcases List.mem_cons.mp hlm' with he | hm
              · subst he
                have hmem : (TMove.apply lm'.2 current, myP) ∈ myR := lookupA_mem _ _ _ hmy
                obtain ⟨hpres, -, -⟩ :=
                  expandLoop_inl_struct current curPath rest _ _ _ _ _ h
                rw [mem_keys]
                exact ⟨myP, hpres _ hmem⟩
              · exact a4 lm' hm

/-- Classification of a successful (meeting) expansion: the meeting state is
a successor of `current` by some processed move, its path is found in the
opposite dictionary, and this side's returned path is either a recorded
entry for the meeting state or `curPath ++ [label]` for a processed move
producing the same state. -/
theorem expandLoop_inr (current : St) (curPath : MPath) :
    ∀ (ms : List (Label × TMove)) (myR otherR : Dict) (myQ : List St)
      (myP otherP : MPath),
      expandLoop current curPath ms myR otherR myQ = Sum.inr (myP, otherP) →
      ∃ lm, lm ∈ ms ∧
        lookupA otherR (TMove.apply lm.2 current) = some otherP ∧
        ((TMove.apply lm.2 current, myP) ∈ myR ∨
          ∃ lm2, lm2 ∈ ms ∧ TMove.apply lm2.2 current = TMove.apply lm.2 current ∧
            myP = curPath ++ [lm2.1]) := by
  intro ms
  induction ms with
  | nil => intro myR otherR myQ myP otherP h; simp [expandLoop] at h
  | cons lm rest ih =>
      intro myR otherR myQ myP otherP h
      cases hmy : lookupA myR (TMove.apply lm.2 current) with
      | none =>
          cases hot : lookupA otherR (TMove.apply lm.2 current) with
          | some p =>
              simp only [expandLoop, hmy, hot, Sum.inr.injEq, Prod.mk.injEq] at h
              obtain ⟨h1, h2⟩ := h
              subst h1; subst h2
              exact ⟨lm, List.mem_cons_self _ _, hot,
                Or.inr ⟨lm, List.mem_cons_self _ _, rfl, rfl⟩⟩
          | none =>
              simp only [expandLoop, hmy, hot] at h
              obtain ⟨lm', hlm', hlook, hcase⟩ := ih _ _ _ _ _ h
              refine ⟨lm', List.mem_cons_of_mem _ hlm', hlook, ?_⟩
              rcases hcase with hin | ⟨lm2, hlm2, heq, hP⟩
              · rcases List.mem_cons.mp hin with he | hm
                · rw [Prod.mk.injEq] at he
                  obtain ⟨he1, he2⟩ := he
                  exact Or.inr ⟨lm, List.mem_cons_self _ _, he1.symm, he2⟩
                · exact Or.inl hm
              · exact Or.inr ⟨lm2, List.mem_cons_of_mem _ hlm2, heq, hP⟩
      | some myP0 =>
          cases hot : lookupA otherR (TMove.apply lm.2 current) with
          | some p =>
              simp only [expandLoop, hmy, hot, Sum.inr.injEq, Prod.mk.injEq] at h
              obtain ⟨h1, h2⟩ := h
              subst h1; subst h2
              exact ⟨lm, List.mem_cons_self _ _, hot, Or.inl (lookupA_mem _ _ _ hmy)⟩
          | none =>
              simp only [expandLoop, hmy, hot] at h
              obtain ⟨lm', hlm', hlook, hcase⟩ := ih _ _ _ _ _ h
              refine ⟨lm', List.mem_cons_of_mem _ hlm', hlook, ?_⟩
              rcases hcase with hin | ⟨lm2, hlm2, heq, hP⟩
              · exact Or.inl hin
              · exact Or.inr ⟨lm2, List.mem_cons_of_mem _ hlm2, heq, hP⟩

/-! ## Replaying label sequences -/

/-- Replaying a concatenation replays the two parts in order. -/
theorem applyLabels_append (cat : Catalog) (p q : MPath) (x : St) :
    applyLabels cat (p ++ q) x = applyLabels cat q (applyLabels cat p x) := by
  simp [applyLabels, List.foldl_append]

/-- Replaying preserves the state length. -/
theorem applyLabels_length (cat : Catalog) : ∀ (p : MPath) (x : St),
    (applyLabels cat p x).length = x.length := by
  intro p
  induction p with
  | nil => intro x; rfl
  | cons l p ihp =>
      intro x
      have h : applyLabels cat (l :: p) x
          = applyLabels cat p ((lookupMove cat l).apply x) := rfl
      rw [h, ihp, apply_length]

/-- A duplicate-free list contained in another list is no longer than it. -/
theorem nodup_subset_length_le (l1 l2 : List Label) (h1 : l1.Nodup)
    (hsub : ∀ x ∈ l1, x ∈ l2) : l1.length ≤ l2.length := by
  rw [← List.toFinset_card_of_nodup h1]
  calc l1.toFinset.card ≤ l2.toFinset.card := by
        apply Finset.card_le_card
        intro x hx
        rw [List.mem_toFinset] at hx ⊢
        exact hsub x hx
    _ ≤ l2.length := List.toFinset_card_le _

/-! ## Properties of one side's block of the loop body -/

/-- A completed one-side block preserves the side invariant; moreover entries
are preserved, new keys avoid the opposite dictionary, an empty queue leaves
everything unchanged, and a non-empty queue trades one dequeued state for
lock-step dictionary/queue growth. -/
theorem sideStep_inl (cat : Catalog) (root : St) (myR otherR : Dict) (myQ : List St)
    (myR' : Dict) (myQ' : List St)
    (h : sideStep cat myR otherR myQ = Sum.inl (myR', myQ'))
    (hs : SideInv cat root myR myQ) :
    SideInv cat root myR' myQ' ∧
    (∀ kv ∈ myR, kv ∈ myR') ∧
    (∀ x ∈ keys myR', x ∈ keys myR ∨ x ∉ keys otherR) ∧
    (myQ = [] → myR' = myR ∧ myQ' = myQ) ∧
    (myQ ≠ [] → myR'.length + myQ.length = myR.length + myQ'.length + 1) := by
  cases myQ with
  | nil =>
      simp only [sideStep, Sum.inl.injEq, Prod.mk.injEq] at h
      obtain ⟨h1, h2⟩ := h
      subst h1; subst h2
      exact ⟨hs, fun kv hkv => hkv, fun x hx => Or.inl hx,
        fun _ => ⟨rfl, rfl⟩, fun hne => absurd rfl hne⟩
  | cons current rest =>
      simp only [sideStep] at h
      obtain ⟨hpres, ⟨app, hq⟩, hcount⟩ := expandLoop_inl_struct _ _ _ _ _ _ _ _ h
      have hqnd : rest.Nodup := (List.nodup_cons.mp hs.qnd).2
      have hqs : ∀ x ∈ rest, x ∈ keys myR :=
        fun x hx => hs.qsub x (List.mem_cons_of_mem _ hx)
      obtain ⟨a1, a2, a3, a4⟩ := expandLoop_inl_inv _ _ _ _ _ _ _ _ h hs.nd hqnd hqs
      have hnew := expandLoop_inl_new _ _ _ _ _ _ _ _ h
      have hcur_mem : current ∈ keys myR := hs.qsub current (List.mem_cons_self _ _)
      have hkeys_pres : ∀ x ∈ keys myR, x ∈ keys myR' := by
        intro x hx
        rw [mem_keys] at hx ⊢
        obtain ⟨v, hv⟩ := hx
        exact ⟨v, hpres _ hv⟩
      have hreach' : ∀ x ∈ keys myR', Reach cat root x := by
        intro x hx
        rw [mem_keys] at hx
        obtain ⟨v, hv⟩ := hx
        rcases hnew (x, v) hv with hold | ⟨lm, hlm, h1, h2, h3, h4⟩
        · exact hs.reach x ((mem_keys _ _).mpr ⟨v, hold⟩)
        · exact Relation.ReflTransGen.tail (hs.reach current hcur_mem) ⟨lm, hlm, h1.symm⟩
      refine ⟨⟨hkeys_pres root hs.rootMem, a1, a2, a3, hreach', ?_⟩, hpres, ?_,
        fun hh => absurd hh (List.cons_ne_nil _ _), ?_⟩
      · intro x hx hxq lm hlm
        rw [mem_keys] at hx
        obtain ⟨v, hv⟩ := hx
        rcases hnew (x, v) hv with hold | ⟨lm2, hlm2, h1, h2, h3, h4⟩
        · have hxk : x ∈ keys myR := (mem_keys _ _).mpr ⟨v, hold⟩
          by_cases hxc : x = current
          · subst hxc
            exact a4 lm hlm
          · have hxrest : x ∉ rest :=
              fun hr => hxq (by rw [hq]; exact List.mem_append.mpr (Or.inl hr))
            have hxoldq : x ∉ current :: rest := by
              simp only [List.mem_cons]
              push_neg
              exact ⟨hxc, hxrest⟩
            exact hkeys_pres _ (hs.closed x hxk hxoldq lm hlm)
        · exact absurd h4 hxq
      · intro x hx
        rw [mem_keys] at hx
        obtain ⟨v, hv⟩ := hx
        rcases hnew (x, v) hv with hold | ⟨lm, hlm, h1, h2, h3, h4⟩
        · exact Or.inl ((mem_keys _ _).mpr ⟨v, hold⟩)
        · exact Or.inr h3
      · intro _
        simp only [List.length_cons]
        omega

/-- A completed one-side block preserves the path invariant. -/
theorem sideStep_inl_path (cat : Catalog) (root : St) (myR otherR : Dict)
    (myQ : List St) (myR' : Dict) (myQ' : List St)
    (h : sideStep cat myR otherR myQ = Sum.inl (myR', myQ'))
    (hcat : (keys cat).Nodup)
    (hqs : ∀ x ∈ myQ, x ∈ keys myR)
    (hp : SidePInv cat root myR) : SidePInv cat root myR' := by
  cases myQ with
  | nil =>
      simp only [sideStep, Sum.inl.injEq, Prod.mk.injEq] at h
      obtain ⟨h1, h2⟩ := h
      subst h1
      exact hp
  | cons current rest =>
      simp only [sideStep] at h
      have hcur : current ∈ keys myR := hqs current (List.mem_cons_self _ _)
      obtain ⟨cp, hcp⟩ := lookupA_isSome_of_mem _ _ hcur
      have hgd : (lookupA myR current).getD [] = cp := by rw [hcp]; rfl
      rw [hgd] at h
      have hnew := expandLoop_inl_new _ _ _ _ _ _ _ _ h
      have hcpc : (current, cp) ∈ myR := lookupA_mem _ _ _ hcp
      have hcorrect : applyLabels cat cp root = current := hp.pcorrect _ hcpc
      have hlabels : ∀ l ∈ cp, l ∈ keys cat := hp.plabels _ hcpc
      constructor
      · intro kv hkv
        rcases hnew kv hkv with hold | ⟨lm, hlm, h1, h2, h3, h4⟩
        · exact hp.pcorrect kv hold
        · rw [h2, h1]
          rw [applyLabels_append, hcorrect]
          have hlk : lookupA cat lm.1 = some lm.2 :=
            lookupA_of_mem_nodup cat hcat lm.1 lm.2 hlm
          simp [applyLabels, lookupMove, hlk]
      · intro kv hkv l hl
        rcases hnew kv hkv with hold | ⟨lm, hlm, h1, h2, h3, h4⟩
        · exact hp.plabels kv hold l hl
        · rw [h2] at hl
          rcases List.mem_append.mp hl with h5 | h5
          · exact hlabels l h5
          · simp only [List.mem_singleton] at h5
            subst h5
            rw [mem_keys]
            exact ⟨lm.2, hlm⟩

/-- A meeting found inside a one-side block exhibits a state reachable from
both roots. -/
theorem sideStep_inr_reach (cat : Catalog) (root rootO : St) (myR otherR : Dict)
    (myQ : List St) (myP otherP : MPath)
    (h : sideStep cat myR otherR myQ = Sum.inr (myP, otherP))
    (hqs : ∀ x ∈ myQ, x ∈ keys myR)
    (hreach : ∀ x ∈ keys myR, Reach cat root x)
    (hreachO : ∀ x ∈ keys otherR, Reach cat rootO x) :
    ∃ m, Reach cat root m ∧ Reach cat rootO m := by
  cases myQ with
  | nil => simp [sideStep] at h
  | cons current rest =>
      simp only [sideStep] at h
      obtain ⟨lm, hlm, hlook, -⟩ := expandLoop_inr _ _ _ _ _ _ _ _ h
      refine ⟨TMove.apply lm.2 current, ?_, ?_⟩
      · exact Relation.ReflTransGen.tail
          (hreach current (hqs _ (List.mem_cons_self _ _))) ⟨lm, hlm, rfl⟩
      · exact hreachO _ ((mem_keys _ _).mpr ⟨otherP, lookupA_mem _ _ _ hlook⟩)

/-- A meeting found inside a one-side block returns two label sequences that
replay from the two roots to the same meeting state, using catalog labels. -/
theorem sideStep_inr_path (cat : Catalog) (root rootO : St) (myR otherR : Dict)
    (myQ : List St) (myP otherP : MPath)
    (h : sideStep cat myR otherR myQ = Sum.inr (myP, otherP))
    (hcat : (keys cat).Nodup)
    (hqs : ∀ x ∈ myQ, x ∈ keys myR)
    (hp : SidePInv cat root myR) (hpo : SidePInv cat rootO otherR) :
    ∃ m, applyLabels cat myP root = m ∧ applyLabels cat otherP rootO = m ∧
      (∀ l ∈ myP, l ∈ keys cat) ∧ (∀ l ∈ otherP, l ∈ keys cat) := by
  cases myQ with
  | nil => simp [sideStep] at h
  | cons current rest =>
      simp only [sideStep] at h
      have hcur : current ∈ keys myR := hqs current (List.mem_cons_self _ _)
      obtain ⟨cp, hcp⟩ := lookupA_isSome_of_mem _ _ hcur
      have hgd : (lookupA myR current).getD [] = cp := by rw [hcp]; rfl
      rw [hgd] at h
      obtain ⟨lm, hlm, hlook, hcase⟩ := expandLoop_inr _ _ _ _ _ _ _ _ h
      have hother : (TMove.apply lm.2 current, otherP) ∈ otherR := lookupA_mem _ _ _ hlook
      refine ⟨TMove.apply lm.2 current, ?_, hpo.pcorrect _ hother, ?_,
        hpo.plabels _ hother⟩
      · rcases hcase with hin | ⟨lm2, hlm2, heq, hP⟩
        · exact hp.pcorrect _ hin
        · rw [hP, applyLabels_append]
          rw [hp.pcorrect _ (lookupA_mem _ _ _ hcp)]
          have hlk : lookupA cat lm2.1 = some lm2.2 :=
            lookupA_of_mem_nodup cat hcat lm2.1 lm2.2 hlm2
          simp [applyLabels, lookupMove, hlk, heq]
      · rcases hcase with hin | ⟨lm2, hlm2, heq, hP⟩
        · exact hp.plabels _ hin
        · intro l hl
          rw [hP] at hl
          rcases List.mem_append.mp hl with h5 | h5
          · exact hp.plabels _ (lookupA_mem _ _ _ hcp) l h5
          · simp only [List.mem_singleton] at h5
            subst h5
            rw [mem_keys]
            exact ⟨lm2.2, hlm2⟩

/-! ## Properties of one full loop iteration -/

/-- One completed loop iteration preserves the invariant, keeps all recorded
entries, and strictly decreases the termination measure whenever at least one
queue was non-empty. -/
theorem bfsStep_inl (cat : Catalog) (a b : St) (s s' : BfsState)
    (h : bfsStep cat s = Sum.inl s') (hi : BInv cat a b s) :
    BInv cat a b s' ∧
    ((s.fwdQ ≠ [] ∨ s.bwdQ ≠ []) → measPhi a b s' < measPhi a b s) ∧
    (∀ kv ∈ s.fwdR, kv ∈ s'.fwdR) ∧ (∀ kv ∈ s.bwdR, kv ∈ s'.bwdR) := by
  cases hf : sideStep cat s.fwdR s.bwdR s.fwdQ with
  | inr r => simp [bfsStep, hf] at h
  | inl p =>
      obtain ⟨fR, fQ⟩ := p
      cases hb : sideStep cat s.bwdR fR s.bwdQ with
      | inr r =>
          obtain ⟨myP, otherP⟩ := r
          simp [bfsStep, hf, hb] at h
      | inl q =>
          obtain ⟨bR, bQ⟩ := q
          simp only [bfsStep, hf, hb, Sum.inl.injEq] at h
          subst h
          obtain ⟨hsf, hpresF, hdisjF, hemptyF, hcountF⟩ :=
            sideStep_inl cat a _ _ _ _ _ hf hi.fwd
          obtain ⟨hsb, hpresB, hdisjB, hemptyB, hcountB⟩ :=
            sideStep_inl cat b _ _ _ _ _ hb hi.bwd
          have hdisj : ∀ x ∈ keys fR, x ∉ keys bR := by
            intro x hxf hxb
            rcases hdisjB x hxb with hxbOld | hxNotF
            · rcases hdisjF x hxf with hxfOld | hxNotB
              · exact hi.disj x hxfOld hxbOld
              · exact hxNotB hxbOld
            · exact hxNotF hxf
          refine ⟨⟨hsf, hsb, hdisj⟩, ?_, hpresF, hpresB⟩
          intro hg
          have hbF : fR.length ≤ bndOf a := dict_bound cat a fR hsf.nd hsf.reach
          have hbB : bR.length ≤ bndOf b := dict_bound cat b bR hsb.nd hsb.reach
          have hmF : s.fwdR.length ≤ fR.length := by
            have hkl : (keys s.fwdR).length ≤ (keys fR).length :=
              nodup_subset_length_le _ _ hi.fwd.nd (fun x hx => by
                rw [mem_keys] at hx ⊢
                obtain ⟨v, hv⟩ := hx
                exact ⟨v, hpresF _ hv⟩)
            simpa only [keys, List.length_map] using hkl
          have hmB : s.bwdR.length ≤ bR.length := by
            have hkl : (keys s.bwdR).length ≤ (keys bR).length :=
              nodup_subset_length_le _ _ hi.bwd.nd (fun x hx => by
                rw [mem_keys] at hx ⊢
                obtain ⟨v, hv⟩ := hx
                exact ⟨v, hpresB _ hv⟩)
            simpa only [keys, List.length_map] using hkl
          simp only [measPhi]
          rcases Classical.em (s.fwdQ = []) with hfq | hfq
          · obtain ⟨he1, he2⟩ := hemptyF hfq
            subst he1; subst he2
            have hbq : s.bwdQ ≠ [] := by
              rcases hg with hg1 | hg1
              · exact absurd hfq hg1
              · exact hg1
            have hc := hcountB hbq
            have hqne : 0 < s.bwdQ.length := List.length_pos.mpr hbq
            omega
          · have hc := hcountF hfq
            have hqne : 0 < s.fwdQ.length := List.length_pos.mpr hfq
            rcases Classical.em (s.bwdQ = []) with hbq | hbq
            · obtain ⟨he1, he2⟩ := hemptyB hbq
              subst he1; subst he2
              omega
            · have hcB := hcountB hbq
              have hqneB : 0 < s.bwdQ.length := List.length_pos.mpr hbq
              omega

/-- One completed loop iteration preserves the path invariant. -/
theorem bfsStep_inl_path (cat : Catalog) (a b : St) (s s' : BfsState)
    (h : bfsStep cat s = Sum.inl s') (hcat : (keys cat).Nodup)
    (hi : BInv cat a b s) (hp : BPInv cat a b s) : BPInv cat a b s' := by
  cases hf : sideStep cat s.fwdR s.bwdR s.fwdQ with
  | inr r => simp [bfsStep, hf] at h
  | inl p =>
      obtain ⟨fR, fQ⟩ := p
      cases hb : sideStep cat s.bwdR fR s.bwdQ with
      | inr r =>
          obtain ⟨myP, otherP⟩ := r
          simp [bfsStep, hf, hb] at h
      | inl q =>
          obtain ⟨bR, bQ⟩ := q
          simp only [bfsStep, hf, hb, Sum.inl.injEq] at h
          subst h
          exact ⟨sideStep_inl_path cat a _ _ _ _ _ hf hcat hi.fwd.qsub hp.fwd,
                 sideStep_inl_path cat b _ _ _ _ _ hb hcat hi.bwd.qsub hp.bwd⟩

/-- A loop iteration that returns exhibits a state reachable from both
roots. -/
theorem bfsStep_inr_reach (cat : Catalog) (a b : St) (s : BfsState) (f bw : MPath)
    (h : bfsStep cat s = Sum.inr (f, bw)) (hi : BInv cat a b s) :
    ∃ m, Reach cat a m ∧ Reach cat b m := by
  cases hf : sideStep cat s.fwdR s.bwdR s.fwdQ with
  | inr r =>
      simp only [bfsStep, hf, Sum.inr.injEq] at h
      subst h
      exact sideStep_inr_reach cat a b _ _ _ _ _ hf hi.fwd.qsub hi.fwd.reach hi.bwd.reach
  | inl p =>
      obtain ⟨fR, fQ⟩ := p
      obtain ⟨hsf, -, -, -, -⟩ := sideStep_inl cat a _ _ _ _ _ hf hi.fwd
      cases hb : sideStep cat s.bwdR fR s.bwdQ with
      | inl q =>
          obtain ⟨bR, bQ⟩ := q
          simp [bfsStep, hf, hb] at h
      | inr r =>
          obtain ⟨myP, otherP⟩ := r
          simp only [bfsStep, hf, hb, Sum.inr.injEq, Prod.mk.injEq] at h
          obtain ⟨h1, h2⟩ := h
          subst h1; subst h2
          obtain ⟨m, hmb, hma⟩ := sideStep_inr_reach cat b a _ _ _ _ _ hb
            hi.bwd.qsub hi.bwd.reach hsf.reach
          exact ⟨m, hma, hmb⟩

/-- A loop iteration that returns yields label sequences replaying from the
two roots to one meeting state, using catalog labels. -/
theorem bfsStep_inr_path (cat : Catalog) (a b : St) (s : BfsState) (f bw : MPath)
    (h : bfsStep cat s = Sum.inr (f, bw)) (hcat : (keys cat).Nodup)
    (hi : BInv cat a b s) (hp : BPInv cat a b s) :
    ∃ m, applyLabels cat f a = m ∧ applyLabels cat bw b = m ∧
      (∀ l ∈ f, l ∈ keys cat) ∧ (∀ l ∈ bw, l ∈ keys cat) := by
  cases hf : sideStep cat s.fwdR s.bwdR s.fwdQ with
  | inr r =>
      simp only [bfsStep, hf, Sum.inr.injEq] at h
      subst h
      exact sideStep_inr_path cat a b _ _ _ _ _ hf hcat hi.fwd.qsub hp.fwd hp.bwd
  | inl p =>
      obtain ⟨fR, fQ⟩ := p
      have hpf : SidePInv cat a fR :=
        sideStep_inl_path cat a _ _ _ _ _ hf hcat hi.fwd.qsub hp.fwd
      cases hb : sideStep cat s.bwdR fR s.bwdQ with
      | inl q =>
          obtain ⟨bR, bQ⟩ := q
          simp [bfsStep, hf, hb] at h
      | inr r =>
          obtain ⟨myP, otherP⟩ := r
          simp only [bfsStep, hf, hb, Sum.inr.injEq, Prod.mk.injEq] at h
          obtain ⟨h1, h2⟩ := h
          subst h1; subst h2
          obtain ⟨m, hmb, hma, hlb, hla⟩ := sideStep_inr_path cat b a _ _ _ _ _ hb
            hcat hi.bwd.qsub hp.bwd hpf
          exact ⟨m, hma, hmb, hla, hlb⟩

/-! ## Properties of the whole loop -/

/-- With fuel at least the measure, the loop reaches a verdict. -/
theorem bfsLoop_total (cat : Catalog) (a b : St) : ∀ (fuel : Nat) (s : BfsState),
    BInv cat a b s → measPhi a b s ≤ fuel → ∃ r, bfsLoop cat fuel s = some r := by
  intro fuel
  induction fuel with
  | zero =>
      intro s hi hphi
      have h1 : s.fwdQ.length = 0 ∧ s.bwdQ.length = 0 := by
        simp only [measPhi] at hphi
        omega
      refine ⟨none, ?_⟩
      simp only [bfsLoop]
      rw [if_pos ⟨List.length_eq_zero.mp h1.1, List.length_eq_zero.mp h1.2⟩]
  | succ fuel ih =>
      intro s hi hphi
      by_cases hg : s.fwdQ = [] ∧ s.bwdQ = []
      · exact ⟨none, by simp only [bfsLoop]; rw [if_pos hg]⟩
      · have hg' : s.fwdQ ≠ [] ∨ s.bwdQ ≠ [] := by tauto
        cases hstep : bfsStep cat s with
        | inr r =>
            refine ⟨some r, ?_⟩
            simp only [bfsLoop]
            rw [if_neg hg, hstep]
        | inl s2 =>
            obtain ⟨hi2, hdec, -, -⟩ := bfsStep_inl cat a b s s2 hstep hi
            obtain ⟨r, hr⟩ := ih s2 hi2 (by have := hdec hg'; omega)
            refine ⟨r, ?_⟩
            simp only [bfsLoop]
            rw [if_neg hg, hstep]
            exact hr

/-- A successful loop run exhibits a state reachable from both roots. -/
theorem bfsLoop_found_reach (cat : Catalog) (a b : St) : ∀ (fuel : Nat) (s : BfsState)
    (f bw : MPath), BInv cat a b s →
    bfsLoop cat fuel s = some (some (f, bw)) →
    ∃ m, Reach cat a m ∧ Reach cat b m := by
  intro fuel
  induction fuel with
  | zero =>
      intro s f bw hi h
      by_cases hg : s.fwdQ = [] ∧ s.bwdQ = [] <;> simp [bfsLoop, hg] at h
  | succ fuel ih =>
      intro s f bw hi h
      by_cases hg : s.fwdQ = [] ∧ s.bwdQ = []
      · simp [bfsLoop, hg] at h
      · simp only [bfsLoop, if_neg hg] at h
        cases hstep : bfsStep cat s with
        | inr r =>
            rw [hstep] at h
            simp only [Option.some.injEq] at h
            subst h
            exact bfsStep_inr_reach cat a b s f bw hstep hi
        | inl s2 =>
            rw [hstep] at h
            obtain ⟨hi2, -, -, -⟩ := bfsStep_inl cat a b s s2 hstep hi
            exact ih s2 f bw hi2 h

/-- A successful loop run yields label sequences replaying from the two
roots to one meeting state, using catalog labels. -/
theorem bfsLoop_found_path (cat : Catalog) (a b : St) (hcat : (keys cat).Nodup) :
    ∀ (fuel : Nat) (s : BfsState) (f bw : MPath), BInv cat a b s → BPInv cat a b s →
    bfsLoop cat fuel s = some (some (f, bw)) →
    ∃ m, applyLabels cat f a = m ∧ applyLabels cat bw b = m ∧
      (∀ l ∈ f, l ∈ keys cat) ∧ (∀ l ∈ bw, l ∈ keys cat) := by
  intro fuel
  induction fuel with
  | zero =>
      intro s f bw hi hp h
      by_cases hg : s.fwdQ = [] ∧ s.bwdQ = [] <;> simp [bfsLoop, hg] at h
  | succ fuel ih =>
      intro s f bw hi hp h
      by_cases hg : s.fwdQ = [] ∧ s.bwdQ = []
      · simp [bfsLoop, hg] at h
      · simp only [bfsLoop, if_neg hg] at h
        cases hstep : bfsStep cat s with
        | inr r =>
            rw [hstep] at h
            simp only [Option.some.injEq] at h
            subst h
            exact bfsStep_inr_path cat a b s f bw hstep hcat hi hp
        | inl s2 =>
            rw [hstep] at h
            obtain ⟨hi2, -, -, -⟩ := bfsStep_inl cat a b s s2 hstep hi
            exact ih s2 f bw hi2 (bfsStep_inl_path cat a b s s2 hstep hcat hi hp) h

/-- A closed visited set containing the root contains everything reachable
from the root. -/
theorem reach_in_closed (cat : Catalog) (root : St) (d : Dict)
    (hroot : root ∈ keys d)
    (hcl : ∀ x ∈ keys d, ∀ lm ∈ cat, TMove.apply lm.2 x ∈ keys d) :
    ∀ x, Reach cat root x → x ∈ keys d := by
  intro x h
  induction h with
  | refl => exact hroot
  | tail h1 h2 ih =>
      obtain ⟨lm, hlm, he⟩ := h2
      rw [← he]
      exact hcl _ ih lm hlm

/-- When both queues are empty the two visited sets are closed and disjoint,
so no state is reachable from both roots. -/
theorem binv_empty_no_meet (cat : Catalog) (a b : St) (s : BfsState)
    (hi : BInv cat a b s) (hf : s.fwdQ = []) (hb : s.bwdQ = []) :
    ∀ m, ¬(Reach cat a m ∧ Reach cat b m) := by
  intro m hm
  have hclF : ∀ x ∈ keys s.fwdR, ∀ lm ∈ cat, TMove.apply lm.2 x ∈ keys s.fwdR := by
    intro x hx lm hlm
    exact hi.fwd.closed x hx (by rw [hf]; exact List.not_mem_nil x) lm hlm
  have hclB : ∀ x ∈ keys s.bwdR, ∀ lm ∈ cat, TMove.apply lm.2 x ∈ keys s.bwdR := by
    intro x hx lm hlm
    exact hi.bwd.closed x hx (by rw [hb]; exact List.not_mem_nil x) lm hlm
  exact hi.disj m
    (reach_in_closed cat a s.fwdR hi.fwd.rootMem hclF m hm.1)
    (reach_in_closed cat b s.bwdR hi.bwd.rootMem hclB m hm.2)

/-- A failing loop run means no state is reachable from both roots. -/
theorem bfsLoop_none (cat : Catalog) (a b : St) : ∀ (fuel : Nat) (s : BfsState),
    BInv cat a b s → bfsLoop cat fuel s = some none →
    ∀ m, ¬(Reach cat a m ∧ Reach cat b m) := by
  intro fuel
  induction fuel with
  | zero =>
      intro s hi h
      by_cases hg : s.fwdQ = [] ∧ s.bwdQ = []
      · exact binv_empty_no_meet cat a b s hi hg.1 hg.2
      · simp [bfsLoop, hg] at h
  | succ fuel ih =>
      intro s hi h
      by_cases hg : s.fwdQ = [] ∧ s.bwdQ = []
      · exact binv_empty_no_meet cat a b s hi hg.1 hg.2
      · simp only [bfsLoop, if_neg hg] at h
        cases hstep : bfsStep cat s with
        | inr r =>
            rw [hstep] at h
            simp at h
        | inl s2 =>
            rw [hstep] at h
            obtain ⟨hi2, -, -, -⟩ := bfsStep_inl cat a b s s2 hstep hi
            exact ih s2 hi2 h

/-- The invariant holds at the initial search state. -/
theorem init_binv (cat : Catalog) (a b : St) (hab : a ≠ b) :
    BInv cat a b (initState a b) := by
  refine ⟨⟨?_, ?_, ?_, ?_, ?_, ?_⟩, ⟨?_, ?_, ?_, ?_, ?_, ?_⟩, ?_⟩
  · simp [initState, keys]
  · simp [initState, keys]
  · simp [initState]
  · intro x hx
    simp only [initState, List.mem_singleton] at hx
    simp [initState, keys, hx]
  · intro x hx
    simp only [initState, keys, List.map_cons, List.map_nil, List.mem_singleton] at hx
    subst hx
    exact Relation.ReflTransGen.refl
  · intro x hx hxq
    simp only [initState, keys, List.map_cons, List.map_nil, List.mem_singleton] at hx
    subst hx
    exact absurd (by simp [initState] : x ∈ (initState x b).fwdQ) hxq
  · simp [initState, keys]
  · simp [initState, keys]
  · simp [initState]
  · intro x hx
    simp only [initState, List.mem_singleton] at hx
    simp [initState, keys, hx]
  · intro x hx
    simp only [initState, keys, List.map_cons, List.map_nil, List.mem_singleton] at hx
    subst hx
    exact Relation.ReflTransGen.refl
  · intro x hx hxq
    simp only [initState, keys, List.map_cons, List.map_nil, List.mem_singleton] at hx
    subst hx
    exact absurd (by simp [initState] : x ∈ (initState a x).bwdQ) hxq
  · intro x hx
    simp only [initState, keys, List.map_cons, List.map_nil, List.mem_singleton] at hx
    subst hx
    simp only [initState, keys, List.map_cons, List.map_nil, List.mem_singleton]
    exact hab

/-- The path invariant holds at the initial search state. -/
theorem init_bpinv (cat : Catalog) (a b : St) : BPInv cat a b (initState a b) := by
  refine ⟨⟨?_, ?_⟩, ⟨?_, ?_⟩⟩
  · intro kv hkv
    simp only [initState, List.mem_singleton] at hkv
    subst hkv
    rfl
  · intro kv hkv
    simp only [initState, List.mem_singleton] at hkv
    subst hkv
    intro l hl
    simp at hl
  · intro kv hkv
    simp only [initState, List.mem_singleton] at hkv
    subst hkv
    rfl
  · intro kv hkv
    simp only [initState, List.mem_singleton] at hkv
    subst hkv
    intro l hl
    simp at hl

/-- The search `DoSolve` succeeds for some fuel exactly when some state is reachable
from both the start and the goal. -/
theorem doSolve_succeeds_iff (a b : St) (cat : Catalog) :
    (∃ fuel f bw, DoSolveFuel fuel a b cat = some (some (f, bw))) ↔
    ∃ m, Reach cat a m ∧ Reach cat b m := by
  by_cases hab : a = b
  · subst hab
    constructor
    · intro _
      exact ⟨a, Relation.ReflTransGen.refl, Relation.ReflTransGen.refl⟩
    · intro _
      exact ⟨0, [], [], by simp [DoSolveFuel]⟩
  · have hinit := init_binv cat a b hab
    constructor
    · rintro ⟨fuel, f, bw, h⟩
      rw [DoSolveFuel, if_neg hab] at h
      exact bfsLoop_found_reach cat a b fuel _ f bw hinit h
    · rintro ⟨m, hm⟩
      obtain ⟨r, hr⟩ :=
        bfsLoop_total cat a b (measPhi a b (initState a b)) _ hinit (le_refl _)
      cases r with
      | none => exact absurd hm (bfsLoop_none cat a b _ _ hinit hr m)
      | some p =>
          obtain ⟨f, bw⟩ := p
          exact ⟨measPhi a b (initState a b), f, bw,
            by rw [DoSolveFuel, if_neg hab]; exact hr⟩

/-! ## Reversibility of valid moves -/

/-- Iterating a move preserves the state length. -/
theorem iterate_apply_length (m : TMove) : ∀ (k : Nat) (cube : St),
    ((TMove.apply m)^[k] cube).length = cube.length := by
  intro k
  induction k with
  | zero => intro cube; rfl
  | succ k ihk =>
      intro cube
      rw [Function.iterate_succ_apply, ihk, apply_length]

/-- Pointwise description of an iterated valid move. -/
theorem iterate_apply_getD (m : TMove) (L : Nat) (hv : ValidMove L m) :
    ∀ (k : Nat) (cube : St), cube.length = L → ∀ p,
      ((TMove.apply m)^[k] cube).getD p defCh
        = cube.getD ((moveIdx m)^[k] p) defCh := by
  intro k
  induction k with
  | zero => intro cube hc p; rfl
  | succ k ihk =>
      intro cube hc p
      rw [Function.iterate_succ_apply]
      rw [ihk (TMove.apply m cube) (by rw [apply_length]; exact hc) p]
      rw [apply_getD_valid m cube (by rw [hc]; exact hv)]
      rw [Function.iterate_succ_apply']

/-- Every valid move has a finite order on states of the valid length: some
positive iterate of it is the identity. -/
theorem apply_order (m : TMove) (L : Nat) (hv : ValidMove L m) :
    ∃ d, 1 ≤ d ∧ ∀ cube : St, cube.length = L → (TMove.apply m)^[d] cube = cube := by
  have hlt : ∀ q : Fin L, moveIdx m q.val < L := fun q => moveIdx_lt m L hv q.val q.isLt
  have hsurj : Function.Surjective (fun q : Fin L => (⟨moveIdx m q.val, hlt q⟩ : Fin L)) := by
    intro q
    obtain ⟨p, hp, he⟩ := moveIdx_surj m L hv q.val q.isLt
    exact ⟨⟨p, hp⟩, Fin.ext he⟩
  have hinj : Function.Injective (fun q : Fin L => (⟨moveIdx m q.val, hlt q⟩ : Fin L)) :=
    Finite.injective_iff_surjective.mpr hsurj
  have hpow : ∀ (k : Nat) (q : Fin L),
      (((Equiv.ofBijective _ ⟨hinj, hsurj⟩ : Equiv.Perm (Fin L)) ^ k) q).val
        = (moveIdx m)^[k] q.val := by
    intro k
    induction k with
    | zero => intro q; simp
    | succ k ihk =>
        intro q
        rw [pow_succ, Equiv.Perm.mul_apply, ihk, Function.iterate_succ_apply]
        rfl
  refine ⟨orderOf (Equiv.ofBijective _ ⟨hinj, hsurj⟩ : Equiv.Perm (Fin L)),
    orderOf_pos _, ?_⟩
  intro cube hc
  apply List.ext_getElem (by rw [iterate_apply_length])
  intro q hq1 hq2
  have hgd := iterate_apply_getD m L hv
    (orderOf (Equiv.ofBijective _ ⟨hinj, hsurj⟩ : Equiv.Perm (Fin L))) cube hc q
  have hqL : q < L := by
    rw [iterate_apply_length, hc] at hq1
    exact hq1
  have hfix : (moveIdx m)^[orderOf (Equiv.ofBijective _ ⟨hinj, hsurj⟩ : Equiv.Perm (Fin L))] q = q := by
    have hp := hpow (orderOf (Equiv.ofBijective _ ⟨hinj, hsurj⟩ : Equiv.Perm (Fin L))) ⟨q, hqL⟩
    rw [pow_orderOf_eq_one] at hp
    simpa using hp.symm
  rw [hfix] at hgd
  rw [List.getD_eq_getElem _ _ hq1, List.getD_eq_getElem _ _ hq2] at hgd
  exact hgd

/-- Iterating one catalog move stays within reachability. -/
theorem reach_iterate (cat : Catalog) (lm : Label × TMove) (hlm : lm ∈ cat) :
    ∀ (k : Nat) (z : St), Reach cat z ((TMove.apply lm.2)^[k] z) := by
  intro k
  induction k with
  | zero => intro z; exact Relation.ReflTransGen.refl
  | succ k ihk =>
      intro z
      rw [Function.iterate_succ_apply']
      exact Relation.ReflTransGen.tail (ihk z) ⟨lm, hlm, rfl⟩

/-- One catalog edge of a valid catalog can be undone by catalog moves. -/
theorem step_rev (cat : Catalog) (L : Nat) (hv : ValidCat cat L) (x y : St)
    (hx : x.length = L) (h : StepR cat x y) : Reach cat y x := by
  obtain ⟨lm, hlm, he⟩ := h
  obtain ⟨d, hd, hid⟩ := apply_order lm.2 L (hv lm hlm)
  have hkey : (TMove.apply lm.2)^[d - 1] y = x := by
    rw [← he, ← Function.iterate_succ_apply]
    rw [show (d - 1).succ = d from by omega]
    exact hid x hx
  have hr := reach_iterate cat lm hlm (d - 1) y
  rw [hkey] at hr
  exact hr

/-- Reachability under a valid catalog is symmetric. -/
theorem reach_symm (cat : Catalog) (L : Nat) (hv : ValidCat cat L) (x y : St)
    (hx : x.length = L) (h : Reach cat x y) : Reach cat y x := by
  induction h with
  | refl => exact Relation.ReflTransGen.refl
  | @tail bmid cmid h1 h2 ih =>
      have hb : bmid.length = L := by rw [reach_length cat x bmid h1]; exact hx
      exact Relation.ReflTransGen.trans (step_rev cat L hv bmid cmid hb h2) ih

/-! ## Claims about the search engine -/

/-- Claim C7: `DoSolve` terminates on every input — some finite fuel yields
a verdict — and, for a well-formed catalog, when the goal is not reachable
from the start the verdict is failure (`false`), reached by exhausting both
frontiers. -/
theorem doSolve_terminates (a b : St) (cat : Catalog) :
    ∃ fuel r, DoSolveFuel fuel a b cat = some r ∧
      (ValidCat cat a.length → ¬ Reach cat a b → r = none) := by
  by_cases hab : a = b
  · subst hab
    exact ⟨0, some ([], []), by simp [DoSolveFuel],
      fun _ hr => absurd Relation.ReflTransGen.refl hr⟩
  · have hinit := init_binv cat a b hab
    obtain ⟨r, hr⟩ :=
      bfsLoop_total cat a b (measPhi a b (initState a b)) _ hinit (le_refl _)
    refine ⟨measPhi a b (initState a b), r,
      by rw [DoSolveFuel, if_neg hab]; exact hr, ?_⟩
    intro hv hnr
    cases r with
    | none => rfl
    | some p =>
        exfalso
        obtain ⟨f, bw⟩ := p
        obtain ⟨m, hma, hmb⟩ := bfsLoop_found_reach cat a b _ _ f bw hinit hr
        have hlab : m.length = a.length := reach_length cat a m hma
        have hlbb : m.length = b.length := reach_length cat b m hmb
        have hsym : Reach cat m b :=
          reach_symm cat a.length hv b m (by omega) hmb
        exact hnr (Relation.ReflTransGen.trans hma hsym)

/-- Witness for claim C7 at a concrete unsolvable instance (mismatched
lengths, empty catalog). -/
theorem doSolve_terminates_witness :
    ∃ fuel r, DoSolveFuel fuel ['a'] ['b', 'c'] [] = some r ∧
      (ValidCat [] (['a'] : St).length → ¬ Reach [] ['a'] ['b', 'c'] → r = none) :=
  doSolve_terminates ['a'] ['b', 'c'] []

/-- Claim C8 as amended: `Solve(a, b, C)` succeeds for some fuel exactly when
`Solve(b, a, C)` does.  (The second half of the original claim — that the two
returned sequences are inverses of each other as label multisets — is false,
see the counterexample.) -/
theorem solve_symmetry (a b : St) (cat : Catalog) :
    SolveSucceeds a b cat ↔ SolveSucceeds b a cat := by
  have hlift : ∀ (x y : St), SolveSucceeds x y cat ↔
      ∃ fuel f bw, DoSolveFuel fuel x y cat = some (some (f, bw)) := by
    intro x y
    constructor
    · rintro ⟨fuel, r, hr⟩
      unfold SolveFuel at hr
      cases hd : DoSolveFuel fuel x y cat with
      | none => rw [hd] at hr; simp at hr
      | some o =>
          cases o with
          | none => rw [hd] at hr; simp at hr
          | some p => exact ⟨fuel, p.1, p.2, by rw [hd]⟩
    · rintro ⟨fuel, f, bw, hd⟩
      exact ⟨fuel, [] ++ (f ++ ReverseMoves bw), by unfold SolveFuel; rw [hd]⟩
  rw [hlift a b, hlift b a, doSolve_succeeds_iff, doSolve_succeeds_iff]
  constructor
  · rintro ⟨m, h1, h2⟩; exact ⟨m, h2, h1⟩
  · rintro ⟨m, h1, h2⟩; exact ⟨m, h2, h1⟩

/-- Replaying the inverted reversal of a label sequence undoes it, for a
catalog with unique labels that is closed under label inversion. -/
theorem applyLabels_reverseMoves (cat : Catalog) (L : Nat)
    (hcat : (keys cat).Nodup) (hinv : InvClosed cat L) :
    ∀ (p : MPath) (x : St), x.length = L → (∀ l ∈ p, l ∈ keys cat) →
      applyLabels cat (ReverseMoves p) (applyLabels cat p x) = x := by
  intro p
  induction p with
  | nil => intro x _ _; rfl
  | cons l p' ih =>
      intro x hx hl
      have hlk : l ∈ keys cat := hl l (List.mem_cons_self _ _)
      rw [mem_keys] at hlk
      obtain ⟨mv, hmv⟩ := hlk
      have hlook : lookupA cat l = some mv := lookupA_of_mem_nodup cat hcat l mv hmv
      obtain ⟨mv2, hl2, hinv2⟩ := hinv (l, mv) hmv
      have hrm : ReverseMoves (l :: p') = ReverseMoves p' ++ [invertMove l] := by
        simp [ReverseMoves]
      have hx1 : applyLabels cat (l :: p') x
          = applyLabels cat p' (TMove.apply mv x) := by
        have h0 : applyLabels cat (l :: p') x
            = applyLabels cat p' ((lookupMove cat l).apply x) := rfl
        rw [h0, lookupMove, hlook, Option.getD_some]
      rw [hrm, hx1, applyLabels_append]
      rw [ih (TMove.apply mv x) (by rw [apply_length]; exact hx)
        (fun l' hl' => hl l' (List.mem_cons_of_mem _ hl'))]
      show (lookupMove cat (invertMove l)).apply (TMove.apply mv x) = x
      rw [lookupMove, hl2, Option.getD_some]
      exact hinv2 x hx

/-- Claim C1 as amended: for a catalog with unique labels that is closed
under label inversion on states of the start's length, every successful
`Solve` returns a label sequence whose replay takes the start state exactly
to the goal state.  (For a catalog not closed under inversion this fails,
see the counterexample.) -/
theorem solve_roundtrip_closed (fuel : Nat) (a g : St) (cat : Catalog) (res : MPath)
    (hcat : (keys cat).Nodup) (hinv : InvClosed cat a.length)
    (hs : SolveFuel fuel a g cat [] = some (some res)) :
    applyLabels cat res a = g := by
  unfold SolveFuel at hs
  cases hd : DoSolveFuel fuel a g cat with
  | none => rw [hd] at hs; simp at hs
  | some o =>
      cases o with
      | none => rw [hd] at hs; simp at hs
      | some p =>
          obtain ⟨f, bw⟩ := p
          rw [hd] at hs
          simp only [Option.some.injEq] at hs
          subst hs
          rw [List.nil_append]
          unfold DoSolveFuel at hd
          by_cases hab : a = g
          · rw [if_pos hab] at hd
            simp only [Option.some.injEq, Prod.mk.injEq] at hd
            obtain ⟨h1, h2⟩ := hd
            subst h1
            subst h2
            show applyLabels cat ([] ++ ReverseMoves []) a = g
            simpa [ReverseMoves, applyLabels] using hab
          · rw [if_neg hab] at hd
            have hinit := init_binv cat a g hab
            have hpinit := init_bpinv cat a g
            obtain ⟨m, hmf, hmb, hlf, hlb⟩ :=
              bfsLoop_found_path cat a g hcat fuel _ f bw hinit hpinit hd
            rw [applyLabels_append, hmf]
            have hglen : g.length = a.length := by
              have h1 : m.length = a.length := by rw [← hmf, applyLabels_length]
              have h2 : m.length = g.length := by rw [← hmb, applyLabels_length]
              omega
            have hrev := applyLabels_reverseMoves cat a.length hcat hinv bw g hglen hlb
            rw [hmb] at hrev
            exact hrev

/-- Witness for the amended claim C1: the self-inverse one-move catalog
`{X2}` solves the two-symbol swap instance and the returned sequence replays
the start to the goal. -/
theorem solve_roundtrip_closed_witness :
    applyLabels catX2 [['X', '2']] ['a', 'b'] = ['b', 'a'] := by
  apply solve_roundtrip_closed 1 ['a', 'b'] ['b', 'a'] catX2 [['X', '2']]
  · decide
  · intro lm hlm
    simp only [catX2, List.mem_singleton] at hlm
    subst hlm
    refine ⟨TMove.cycle [0, 1], by decide, ?_⟩
    intro cube hc
    show TMove.apply (TMove.comp (TMove.cycle [0, 1]) (TMove.cycle [0, 1])) cube = cube
    exact apply_id_of_moveIdx _ cube 2 hc (by decide) (by decide)
  · decide
